import Mathlib

/-!
Verification of the loyverse-mcp-server retrieval and ingestion core.

The repository contains two parallel RAG implementations:
* a document-oriented one in `src/lib/rag.ts` (the large file: chunking,
  batched embeddings, hybrid search over a `chunks` collection keyed by
  `restaurant`, reciprocal rank fusion with provenance tags, document
  lifecycle and stats) — embedded below in namespace `DocRag`;
* a CSV-oriented one (the small `rag.ts` module plus `embeddings.ts` and the
  upload route) — embedded below in namespace `CsvRag`.

Text is modelled as `String` (or `List Char` where the code manipulates
character positions), scores as `ℚ`, the MongoDB collections as Lean lists,
and the external search/embedding providers as explicit function parameters
returning `Except` values; a rejected promise is an `Except.error`.
JavaScript `Map` objects are modelled as insertion-ordered association
lists, and `Array.prototype.sort` as a stable insertion sort on the
comparator the code passes.
-/

namespace DocRag

/-- Provenance tag of a fused search hit (`"vector" | "text" | "both"`). -/
inductive Source where
  | vector
  | text
  | both
deriving DecidableEq, Repr

/-- Metadata attached to a chunk (`DocumentMetadata` in `rag.ts`).  The
`type` field is a plain string at runtime (TypeScript types are erased). -/
structure DocumentMetadata where
  type : String
  title : String
  restaurant : Option String
  sectionLabel : Option String
  page : Option Nat
  tags : Option (List String)
deriving DecidableEq, Repr

/-- One stored retrievable unit (`DocumentChunk` in `rag.ts`). -/
structure DocumentChunk where
  mongoId : Option String
  document_id : String
  restaurant : String
  content : String
  embedding : List ℚ
  metadata : DocumentMetadata
  chunk_index : Nat
  created_at : Nat
deriving DecidableEq, Repr

/-- A stored whole-document record (`StoredDocument` in `rag.ts`). -/
structure StoredDocument where
  mongoId : Option String
  document_id : String
  restaurant : String
  title : String
  type : String
  content : String
  chunk_count : Nat
  created_at : Nat
deriving DecidableEq, Repr

/-- One fused search hit (`SearchResult` in `rag.ts`). -/
structure SearchResult where
  content : String
  metadata : DocumentMetadata
  score : ℚ
  source : Source
  document_id : String
deriving DecidableEq, Repr

/-- A hit of one underlying search, tagged with its (1-based) provider rank
(`RankedResult` in `rag.ts`). -/
structure RankedResult where
  id : String
  rank : Nat
  doc : DocumentChunk
deriving DecidableEq, Repr

/-- The value stored in the `scores` map of `reciprocalRankFusion`: the
accumulated score, the first doc seen for this id, and the two possible
members of the `sources` set. -/
structure FuseEntry where
  score : ℚ
  doc : DocumentChunk
  hasVector : Bool
  hasText : Bool
deriving DecidableEq, Repr

/-- The `RRF_K = 60` smoothing constant of `rag.ts`. -/
def RRF_K : Nat := 60

/-- RRF contribution `1 / (k + rank)` of a hit at a given rank. -/
def rrfContribution (k rank : Nat) : ℚ := 1 / ((k : ℚ) + (rank : ℚ))

/-- Insertion into the insertion-ordered `scores` map: an existing key keeps
its position, accumulates the score and adds a source flag; a fresh key is
appended with the singleton source set. -/
def updateEntry (m : List (String × FuseEntry)) (id : String) (s : ℚ)
    (doc : DocumentChunk) (isVector : Bool) : List (String × FuseEntry) :=
  match m with
  | [] => [(id, ⟨s, doc, isVector, !isVector⟩)]
  | (i, e) :: rest =>
    if i = id then
      (i, { e with score := e.score + s,
                   hasVector := e.hasVector || isVector,
                   hasText := e.hasText || !isVector }) :: rest
    else
      (i, e) :: updateEntry rest id s doc isVector

/-- Processing one hit of one list inside `reciprocalRankFusion`. -/
def addHit (k : Nat) (isVector : Bool) (m : List (String × FuseEntry))
    (r : RankedResult) : List (String × FuseEntry) :=
  updateEntry m r.id (rrfContribution k r.rank) r.doc isVector

/-- The fully populated `scores` map of `reciprocalRankFusion`: all vector
hits are folded in first, then all text hits. -/
def rrfScores (k : Nat) (vectorResults textResults : List RankedResult) :
    List (String × FuseEntry) :=
  textResults.foldl (addHit k false) (vectorResults.foldl (addHit k true) [])

/-- Conversion of a map entry to a `SearchResult`, mirroring
`sources.size === 2 ? "both" : (sources.has("vector") ? "vector" : "text")`. -/
def FuseEntry.toSearchResult (e : FuseEntry) : SearchResult :=
  { content := e.doc.content
    metadata := e.doc.metadata
    score := e.score
    source := if e.hasVector && e.hasText then Source.both
              else if e.hasVector then Source.vector else Source.text
    document_id := e.doc.document_id }

/-- The comparator `(a, b) => b.score - a.score` of the final sort: `a` is
placed before `b` exactly when its score is strictly larger (a stable
descending sort). -/
def scoreAbove (a b : String × FuseEntry) : Prop := b.2.score < a.2.score

instance : DecidableRel scoreAbove := fun a b => by
  unfold scoreAbove; infer_instance

/-- Reciprocal Rank Fusion (`reciprocalRankFusion` in `rag.ts`, lines
545-600): merge the two ranked lists by chunk id, sum `1/(k+rank)`
contributions, sort by descending fused score and tag provenance. -/
def reciprocalRankFusion (vectorResults textResults : List RankedResult)
    (k : Nat) : List SearchResult :=
  ((rrfScores k vectorResults textResults).insertionSort scoreAbove).map
    (fun p => p.2.toSearchResult)

/-- The summed RRF contributions of one input list to one chunk id. -/
def contribSum (k : Nat) (l : List RankedResult) (id : String) : ℚ :=
  ((l.filter (fun r => r.id = id)).map (fun r => rrfContribution k r.rank)).sum

/-- Lookup in the association-list model of the `scores` map. -/
def lookupEntry (m : List (String × FuseEntry)) (id : String) :
    Option FuseEntry :=
  (m.find? (fun p => p.1 = id)).map (fun p => p.2)

/-- Score recorded for an id, zero when absent. -/
def entryScore (m : List (String × FuseEntry)) (id : String) : ℚ :=
  ((lookupEntry m id).map FuseEntry.score).getD 0

/-- Vector flag recorded for an id, false when absent. -/
def entryHasVector (m : List (String × FuseEntry)) (id : String) : Bool :=
  ((lookupEntry m id).map FuseEntry.hasVector).getD false

/-- Text flag recorded for an id, false when absent. -/
def entryHasText (m : List (String × FuseEntry)) (id : String) : Bool :=
  ((lookupEntry m id).map FuseEntry.hasText).getD false

/-- Sample metadata used for the concrete RRF checks. -/
def sampleMetadata : DocumentMetadata :=
  { type := "sop", title := "Fryer Cleaning", restaurant := none,
    sectionLabel := none, page := none, tags := none }

/-- Sample stored chunk used for the concrete RRF checks. -/
def sampleChunk : DocumentChunk :=
  { mongoId := some "c1", document_id := "d1", restaurant := "fika",
    content := "hello", embedding := [], metadata := sampleMetadata,
    chunk_index := 0, created_at := 0 }

/-- Failure kinds a search or embedding call can surface. -/
inductive SearchErr where
  | indexNotFound
  | providerError
  | storeError
deriving DecidableEq, Repr

/-- The merge key `doc._id?.toString() || fallback` used by `hybridSearch`:
a missing or empty id string falls back to the positional key. -/
def rankedId (fallback : String) (c : DocumentChunk) : String :=
  match c.mongoId with
  | some s => if s = "" then fallback else s
  | none => fallback

/-- Conversion of an engine result list into `RankedResult`s with 1-based
ranks, as `hybridSearch` does with `rank: i + 1`. -/
def toRanked (tag : String) (l : List DocumentChunk) : List RankedResult :=
  l.enum.map (fun p =>
    ⟨rankedId (tag ++ "_" ++ toString p.1) p.2, p.1 + 1, p.2⟩)

/-- Hybrid search (`hybridSearch` in `rag.ts`, lines 606-694).  The store is
the `chunks` collection; `embedQuery`, `vecEngine` and `textEngine` stand for
`generateEmbedding`, the `$vectorSearch` stage (which receives the
`restaurant` filter and the `limit * 3` cap) and the `$search` stage (which
receives no tenant filter; a `$match` on `restaurant` and a `$limit` stage
follow it in the pipeline).  Both engine calls sit inside one `Promise.all`,
so an error from either rejects the whole call: there is no `try`/`catch`
around the lexical branch in this implementation. -/
def hybridSearch (store : List DocumentChunk)
    (embedQuery : String → Except SearchErr (List ℚ))
    (vecEngine : List ℚ → List DocumentChunk →
      Except SearchErr (List DocumentChunk))
    (textEngine : String → List DocumentChunk →
      Except SearchErr (List DocumentChunk))
    (restaurant query : String) (limit : Nat) :
    Except SearchErr (List SearchResult) :=
  match embedQuery query with
  | Except.error e => Except.error e
  | Except.ok emb =>
    match vecEngine emb (store.filter (fun c => c.restaurant == restaurant)),
        textEngine query store with
    | Except.error e, _ => Except.error e
    | Except.ok _, Except.error e => Except.error e
    | Except.ok vecAll, Except.ok textAll =>
      Except.ok ((reciprocalRankFusion
        (toRanked "v" (vecAll.take (limit * 3)))
        (toRanked "t" ((textAll.filter
          (fun c => c.restaurant == restaurant)).take (limit * 3)))
        RRF_K).take limit)

/-- Sample chunk owned by tenant `"b"`. -/
def chunkTenantB : DocumentChunk :=
  { mongoId := some "cb", document_id := "db", restaurant := "b",
    content := "bee", embedding := [], metadata := sampleMetadata,
    chunk_index := 0, created_at := 0 }

/-- Sample chunk owned by tenant `"a"`. -/
def chunkTenantA : DocumentChunk :=
  { mongoId := some "ca", document_id := "da", restaurant := "a",
    content := "ay", embedding := [], metadata := sampleMetadata,
    chunk_index := 0, created_at := 0 }

end DocRag

namespace CsvRag

/-- Metadata of one CSV-derived chunk (`DocumentChunk.metadata` in
`mongodb.ts`). -/
structure CsvChunkMetadata where
  restaurant : String
  csv_type : String
  filename : String
  row_index : Nat
  uploaded_at : String
deriving DecidableEq, Repr

/-- One CSV-derived chunk (`DocumentChunk` in `mongodb.ts`). -/
structure CsvChunk where
  mongoId : Option String
  text : String
  embedding : List ℚ
  metadata : CsvChunkMetadata
deriving DecidableEq, Repr

/-- One hit of the CSV search path (`SearchResult` in the small `rag.ts`:
`{text, score, metadata}`).  The `$project` stages of both pipelines return
exactly these fields, so an engine result is modelled directly as a list of
`CsvSearchResult`. -/
structure CsvSearchResult where
  text : String
  score : ℚ
  metadata : CsvChunkMetadata
deriving DecidableEq, Repr

/-- Lexical search of the CSV path (`textSearch` in the small `rag.ts`): the
aggregate call sits in a `try`/`catch` whose handler returns `[]`, so a
failing lexical index degrades to an empty result list. -/
def textSearch (engineResult : Except DocRag.SearchErr (List CsvSearchResult)) :
    List CsvSearchResult :=
  match engineResult with
  | Except.ok results => results
  | Except.error _ => []

/-- Semantic search of the CSV path (`vectorSearch` in the small `rag.ts`):
no `try`/`catch`, an engine failure propagates. -/
def vectorSearch
    (engineResult : Except DocRag.SearchErr (List CsvSearchResult)) :
    Except DocRag.SearchErr (List CsvSearchResult) :=
  engineResult

/-- Merge key `` `${filename}:${row_index}` `` of the CSV-path RRF. -/
def rrfKey (r : CsvSearchResult) : String :=
  r.metadata.filename ++ ":" ++ toString r.metadata.row_index

/-- The `scoreMap.set(key, {result, score})` of the vector phase: an
unconditional overwrite that keeps the original insertion position. -/
def setEntry (m : List (String × (CsvSearchResult × ℚ))) (key : String)
    (v : CsvSearchResult × ℚ) : List (String × (CsvSearchResult × ℚ)) :=
  match m with
  | [] => [(key, v)]
  | (k0, v0) :: rest =>
    if k0 = key then (k0, v) :: rest else (k0, v0) :: setEntry rest key v

/-- The text phase of the CSV-path RRF: an existing key accumulates the
score, a fresh key is appended. -/
def addTextEntry (m : List (String × (CsvSearchResult × ℚ))) (key : String)
    (r : CsvSearchResult) (s : ℚ) : List (String × (CsvSearchResult × ℚ)) :=
  match m with
  | [] => [(key, (r, s))]
  | (k0, v0) :: rest =>
    if k0 = key then (k0, (v0.1, v0.2 + s)) :: rest
    else (k0, v0) :: addTextEntry rest key r s

/-- RRF of the CSV path (`reciprocalRankFusion` in the small `rag.ts`, lines
161-191): 0-based `forEach` ranks scored as `1/(k + rank + 1)`, keys
`filename:row_index`, no provenance tags. -/
def reciprocalRankFusion (vectorResults textResults : List CsvSearchResult) :
    List CsvSearchResult :=
  let m1 := vectorResults.enum.foldl
    (fun m p => setEntry m (rrfKey p.2)
      (p.2, 1 / ((60 : ℚ) + (p.1 : ℚ) + 1))) []
  let m2 := textResults.enum.foldl
    (fun m p => addTextEntry m (rrfKey p.2) p.2
      (1 / ((60 : ℚ) + (p.1 : ℚ) + 1))) m1
  (m2.insertionSort (fun a b => b.2.2 < a.2.2)).map
    (fun p => { p.2.1 with score := p.2.2 })

/-- Hybrid search of the CSV path (`hybridSearch` in the small `rag.ts`,
lines 26-56): embedding failure and vector failure propagate; the lexical
result passes through `textSearch` and therefore cannot fail. -/
def hybridSearch (embedResult : Except DocRag.SearchErr (List ℚ))
    (vecResult textResult : Except DocRag.SearchErr (List CsvSearchResult))
    (limit : Nat) : Except DocRag.SearchErr (List CsvSearchResult) :=
  match embedResult with
  | Except.error e => Except.error e
  | Except.ok _ =>
    match vectorSearch vecResult with
    | Except.error e => Except.error e
    | Except.ok vectorResults =>
      Except.ok ((reciprocalRankFusion vectorResults
        (textSearch textResult)).take limit)

/-- The `deleteMany({"metadata.filename": filename})` of `deleteByFilename`
in the small `rag.ts`: the predicate mentions only the filename, no tenant
field.  Returns the remaining store and the deleted count. -/
def deleteByFilename (store : List CsvChunk) (filename : String) :
    List CsvChunk × Nat :=
  (store.filter (fun c => !(c.metadata.filename == filename)),
   (store.filter (fun c => c.metadata.filename == filename)).length)

/-- The pre-insert cleanup of the upload route (`POST` in
`src/app/api/upload/route.ts`): it receives the uploading tenant but passes
only the filename to `deleteByFilename`. -/
def uploadCleanup (restaurant filename : String) (store : List CsvChunk) :
    List CsvChunk × Nat :=
  deleteByFilename store filename

end CsvRag

namespace DocRag

/-- The persistent state of the document path: the `chunks` and `documents`
collections of the `loyverse_rag` database. -/
structure RagStore where
  chunks : List DocumentChunk
  docs : List StoredDocument
deriving DecidableEq, Repr

/-- Result shape of `deleteDocument`. -/
structure DeleteResult where
  chunksDeleted : Nat
  documentDeleted : Bool
deriving DecidableEq, Repr

/-- The `deleteOne({restaurant, document_id})` call: removes the first
matching document record and reports the deleted count (0 or 1). -/
def deleteOneDoc (docs : List StoredDocument) (restaurant documentId : String) :
    List StoredDocument × Nat :=
  match docs with
  | [] => ([], 0)
  | d :: rest =>
    if d.restaurant == restaurant && d.document_id == documentId then (rest, 1)
    else
      let r := deleteOneDoc rest restaurant documentId
      (d :: r.1, r.2)

/-- Document deletion (`deleteDocument` in `rag.ts`, lines 778-801): a
`deleteMany` on the chunks with the `(restaurant, document_id)` predicate,
then a `deleteOne` on the document record with the same predicate; the
result reports the chunk count and `deletedCount > 0`.  Both calls succeed
on zero matches, so a missing document is a no-op, not an error. -/
def deleteDocument (st : RagStore) (restaurant documentId : String) :
    RagStore × DeleteResult :=
  let chunkMatch := fun (c : DocumentChunk) =>
    c.restaurant == restaurant && c.document_id == documentId
  let chunksResult :=
    ((st.chunks.filter (fun c => !(chunkMatch c))),
     (st.chunks.filter chunkMatch).length)
  let docResult := deleteOneDoc st.docs restaurant documentId
  (⟨chunksResult.1, docResult.1⟩,
   ⟨chunksResult.2, decide (0 < docResult.2)⟩)

/-- The six enumerated document types (`DocumentType` in `rag.ts`). -/
def typeKeys : List String := ["menu", "recipe", "sop", "policy", "manual", "other"]

/-- The own *data* properties of `Object.prototype`: the JS `in` operator
walks the prototype chain, so `name in documentsByType` is also true for
these inherited names, and assigning `documentsByType[name] = count` then
creates a shadowing own property on the object.  (`__proto__` is also found
by `in` but is an inherited *accessor*: assigning a number through it is a
silent no-op, so it is handled separately in `assignBucket`.) -/
def protoDataProps : List String :=
  ["constructor", "hasOwnProperty", "isPrototypeOf", "propertyIsEnumerable",
   "toLocaleString", "toString", "valueOf", "__defineGetter__",
   "__defineSetter__", "__lookupGetter__", "__lookupSetter__"]

/-- JS own-property assignment on the spurious part of the record: overwrite
in place when the key already exists, else append (insertion order kept). -/
def setOwn : List (String × Nat) → String → Nat → List (String × Nat)
  | [], k, n => [(k, n)]
  | q :: rest, k, n =>
    if q.1 = k then (q.1, n) :: rest else q :: setOwn rest k n

/-- The `documentsByType` record of `getRAGStats`: the six declared zero
buckets, plus the spurious own properties (`extra`, in insertion order)
that the assignment loop can create through names inherited from
`Object.prototype`. -/
structure TypeCounts where
  menu : Nat
  recipe : Nat
  sop : Nat
  policy : Nat
  manual : Nat
  other : Nat
  extra : List (String × Nat)
deriving DecidableEq, Repr

/-- The `documentsByType` object literal: six zero buckets, no extra own
properties yet. -/
def zeroTypeCounts : TypeCounts := ⟨0, 0, 0, 0, 0, 0, []⟩

/-- One loop step `if (agg._id in documentsByType) documentsByType[agg._id] =
agg.count`.  The `in` test also finds the names `documentsByType` inherits
from `Object.prototype`; for those, the assignment creates a new own
property (`extra`) — except `__proto__`, whose inherited setter swallows a
numeric write.  An id matching none of these is skipped. -/
def assignBucket (tc : TypeCounts) (p : String × Nat) : TypeCounts :=
  if p.1 = "menu" then { tc with menu := p.2 }
  else if p.1 = "recipe" then { tc with recipe := p.2 }
  else if p.1 = "sop" then { tc with sop := p.2 }
  else if p.1 = "policy" then { tc with policy := p.2 }
  else if p.1 = "manual" then { tc with manual := p.2 }
  else if p.1 = "other" then { tc with other := p.2 }
  else if p.1 = "__proto__" then tc
  else if protoDataProps.contains p.1 then
    { tc with extra := setOwn tc.extra p.1 p.2 }
  else tc

/-- The `$group: {_id: "$type", count: {$sum: 1}}` aggregation over a list of
document records: one entry per distinct stored type string with its count. -/
def typeAgg (ds : List StoredDocument) : List (String × Nat) :=
  ((ds.map (fun d => d.type)).dedup).map
    (fun ty => (ty, (ds.filter (fun d => d.type == ty)).length))

/-- The assignment loop of `getRAGStats` over the aggregation result. -/
def buildTypeCounts (agg : List (String × Nat)) : TypeCounts :=
  agg.foldl assignBucket zeroTypeCounts

/-- Result shape of `getRAGStats`. -/
structure RAGStats where
  totalDocuments : Nat
  totalChunks : Nat
  documentsByType : TypeCounts
deriving DecidableEq, Repr

/-- The `restaurant ? { restaurant } : {}` filter: an absent or empty (falsy)
tenant id means "all tenants". -/
def tenantFilter (restaurant : Option String) (rest : String) : Bool :=
  match restaurant with
  | none => true
  | some r => if r = "" then true else rest == r

/-- The document records matching the stats filter. -/
def docsFiltered (st : RagStore) (restaurant : Option String) :
    List StoredDocument :=
  st.docs.filter (fun d => tenantFilter restaurant d.restaurant)

/-- The chunk records matching the stats filter. -/
def chunksFiltered (st : RagStore) (restaurant : Option String) :
    List DocumentChunk :=
  st.chunks.filter (fun c => tenantFilter restaurant c.restaurant)

/-- Statistics (`getRAGStats` in `rag.ts`, lines 815-850): document and chunk
counts under the optional tenant filter, plus the per-type buckets built from
the group-by aggregation. -/
def getRAGStats (st : RagStore) (restaurant : Option String) : RAGStats :=
  { totalDocuments := (docsFiltered st restaurant).length
    totalChunks := (chunksFiltered st restaurant).length
    documentsByType := buildTypeCounts (typeAgg (docsFiltered st restaurant)) }

/-- Reading one of the six buckets by its key string (a modelling helper for
the bracket access `documentsByType[agg._id]`). -/
def bucketGet (tc : TypeCounts) (key : String) : Nat :=
  if key = "menu" then tc.menu
  else if key = "recipe" then tc.recipe
  else if key = "sop" then tc.sop
  else if key = "policy" then tc.policy
  else if key = "manual" then tc.manual
  else if key = "other" then tc.other
  else 0

end DocRag

namespace Embeddings

/-- One element of the provider response `json.data`: an index-tagged
embedding vector (OpenAI tags each item with the position of its input). -/
structure EmbedItem where
  index : Nat
  embedding : List ℚ
deriving DecidableEq, Repr

/-- The batch loop of `generateEmbeddings` in `embeddings.ts`: slices of
`BATCH_SIZE = 1000`, one provider call per slice, and the response mapped in
ARRAY order (`response.data.map((d) => d.embedding)` — the `index` tags are
ignored).  The second component counts provider calls. -/
def generateEmbeddingsGo (provider : List String → List EmbedItem)
    (ts : List String) : List (List ℚ) × Nat :=
  if h : ts = [] then ([], 0)
  else
    let rest := generateEmbeddingsGo provider (ts.drop 1000)
    ((provider (ts.take 1000)).map (fun d => d.embedding) ++ rest.1,
     rest.2 + 1)
termination_by ts.length
decreasing_by
  rw [List.length_drop]
  exact Nat.sub_lt (List.length_pos.mpr h) (by norm_num)

/-- `generateEmbeddings` of `embeddings.ts` (lines 41-67): returns `[]`
without any provider call on empty input, otherwise runs the batch loop. -/
def generateEmbeddings (provider : List String → List EmbedItem)
    (texts : List String) : List (List ℚ) × Nat :=
  if texts = [] then ([], 0) else generateEmbeddingsGo provider texts

end Embeddings

namespace DocRag

/-- The index-based re-sort `json.data.sort((a, b) => a.index - b.index)` of
`generateBatchEmbeddings` in the large `rag.ts` (a stable ascending sort). -/
def sortByIndex (items : List Embeddings.EmbedItem) :
    List Embeddings.EmbedItem :=
  items.insertionSort (fun a b => a.index < b.index)

/-- `generateBatchEmbeddings` of the large `rag.ts` (lines 444-470): one
provider call with all texts (no empty-input check, so the call happens even
for `[]`), response re-sorted by its `index` tags before extracting the
embeddings.  The second component counts provider calls. -/
def generateBatchEmbeddings (provider : List String → List Embeddings.EmbedItem)
    (texts : List String) : List (List ℚ) × Nat :=
  ((sortByIndex (provider texts)).map (fun d => d.embedding), 1)

/-- The response a well-behaved provider produces: item `i` tagged `index =
i` and carrying the embedding of `texts[i]`. -/
def taggedResponse (f : String → List ℚ) (texts : List String) :
    List Embeddings.EmbedItem :=
  texts.enum.map (fun p => ⟨p.1, f p.2⟩)

end DocRag

/-- The concrete misbehaving provider of the C6 counterexample: for any
input it answers with the two items `{index: 1, embedding: [2]}` and
`{index: 0, embedding: [1]}` — a valid index-tagged response delivered out
of array order. -/
def cexProvider : List String → List Embeddings.EmbedItem :=
  fun _ => [⟨1, [2]⟩, ⟨0, [1]⟩]

/-- The intended embedding assignment of the C6 counterexample: `"a" ↦ [1]`
(the item tagged index 0) and every other text `↦ [2]`. -/
def cexEmb : String → List ℚ := fun s => if s = "a" then [1] else [2]

/-- JavaScript whitespace test used by `trim()` and `\s` (ASCII range). -/
def isWS (c : Char) : Bool :=
  c = ' ' || c = '\t' || c = '\n' || c = '\r' || c = '\x0b' || c = '\x0c'

/-- The JavaScript `String.prototype.trim()` over a character list. -/
def jsTrim (s : List Char) : List Char :=
  ((s.dropWhile isWS).reverse.dropWhile isWS).reverse

/-- The JavaScript `.replace(/\s+/g, "_")`: every maximal whitespace run
becomes a single underscore.  The flag records being inside a run whose
underscore is already emitted. -/
def squashWS : List Char → Bool → List Char
  | [], _ => []
  | c :: rest, inRun =>
    if isWS c then
      if inRun then squashWS rest true else '_' :: squashWS rest true
    else c :: squashWS rest false

namespace DocRag

/-- The `text.split(/\n\n+/)` scan: a run of two-or-more newlines ends the
current paragraph, and the remainder of the run is consumed greedily.
`some cur` carries the reversed pending paragraph; `none` is the skip state
right after a break, still swallowing the rest of the newline run. -/
def splitParasAux : List Char → Option (List Char) → List (List Char)
  | [], none => [[]]
  | [], some cur => [cur.reverse]
  | c :: rest, none =>
    if c = '\n' then splitParasAux rest none
    else splitParasAux rest (some [c])
  | c :: rest, some cur =>
    if c = '\n' ∧ rest.head? = some '\n' then
      cur.reverse :: splitParasAux rest none
    else
      splitParasAux rest (some (c :: cur))

/-- `text.split(/\n\n+/).filter(p => p.trim())`: the paragraphs the chunker
iterates over. -/
def paragraphsOf (text : List Char) : List (List Char) :=
  (splitParasAux text (some [])).filter (fun p => !(jsTrim p).isEmpty)

/-- One emitted chunk (`ChunkResult` in `rag.ts`). -/
structure ChunkResult where
  content : List Char
  index : Nat
deriving DecidableEq, Repr

/-- `currentChunk.lastIndexOf(" ", maxChars)`: the largest index of a space
at or before the position (and inside the string), if any. -/
def lastSpaceIdx (s : List Char) (pos : Nat) : Option Nat :=
  ((List.range (min (pos + 1) s.length)).filter
    (fun i => s.getD i 'x' = ' ')).getLast?

/-- `splitPoint > maxChars / 2 ? splitPoint : maxChars` with the JS `-1`
missing-index convention (`-1 > maxChars / 2` is false). -/
def actualSplitOf (s : List Char) (maxChars : Nat) : Nat :=
  match lastSpaceIdx s maxChars with
  | some i => if maxChars < 2 * i then i else maxChars
  | none => maxChars

/-- The JavaScript one-argument `slice(start)`: a negative `start` counts
from the end, clamped at 0. -/
def jsSliceFrom (s : List Char) (start : Int) : List Char :=
  if 0 ≤ start then s.drop start.toNat
  else s.drop (s.length - (-start).toNat)

/-- The `while (currentChunk.length > maxChars)` hard-split loop of
`chunkText`, fuelled: when `actualSplit` equals `overlap` the JS loop makes
no progress (the state repeats verbatim), so no fuel completes it and the
model answers `none` — the source loops forever there. -/
def splitLoop (maxChars overlap : Nat) :
    Nat → List Char → List ChunkResult → Nat →
    Option (List Char × List ChunkResult × Nat)
  | 0, _, _, _ => none
  | fuel + 1, cur, chunks, idx =>
    if cur.length ≤ maxChars then some (cur, chunks, idx)
    else
      let actualSplit := actualSplitOf cur maxChars
      splitLoop maxChars overlap fuel
        (jsTrim (jsSliceFrom cur ((actualSplit : Int) - (overlap : Int))))
        (chunks ++ [⟨jsTrim (cur.take actualSplit), idx⟩])
        (idx + 1)

/-- The chunker's loop state: emitted chunks, the running buffer
`currentChunk` and the next index `chunkIndex`. -/
structure CState where
  chunks : List ChunkResult
  cur : List Char
  idx : Nat
deriving DecidableEq, Repr

/-- One iteration of the paragraph loop of `chunkText`: flush the buffer
when the paragraph would overflow it (carrying the last `overlap` characters
forward), otherwise append the paragraph; then run the hard-split loop. -/
def processPara (maxChars overlap : Nat) (st : CState) (para : List Char) :
    Option CState :=
  let trimmedPara := jsTrim para
  if trimmedPara.isEmpty then some st
  else
    let st1 : CState :=
      if st.cur ≠ [] ∧ st.cur.length + trimmedPara.length + 2 > maxChars then
        { chunks := st.chunks ++ [⟨jsTrim st.cur, st.idx⟩]
          cur := if 0 < overlap ∧ overlap < st.cur.length then
              (st.cur.drop (st.cur.length - overlap))
                ++ '\n' :: '\n' :: trimmedPara
            else trimmedPara
          idx := st.idx + 1 }
      else
        { chunks := st.chunks
          cur := if st.cur.isEmpty then trimmedPara
                 else st.cur ++ '\n' :: '\n' :: trimmedPara
          idx := st.idx }
    match splitLoop maxChars overlap (st1.cur.length + 2)
        st1.cur st1.chunks st1.idx with
    | none => none
    | some (cur, chunks, idx) => some ⟨chunks, cur, idx⟩

/-- `DEFAULT_CHUNK_SIZE` of `rag.ts`. -/
def DEFAULT_CHUNK_SIZE : Nat := 500

/-- `DEFAULT_CHUNK_OVERLAP` of `rag.ts`. -/
def DEFAULT_CHUNK_OVERLAP : Nat := 50

/-- The chunker (`chunkText` in `rag.ts`, lines 481-533).  `none` models the
non-termination of the hard-split loop; every terminating run is `some`. -/
def chunkText (text : List Char) (maxChars overlap : Nat) :
    Option (List ChunkResult) :=
  match (paragraphsOf text).foldlM (processPara maxChars overlap)
      ⟨[], [], 0⟩ with
  | none => none
  | some st =>
    if (jsTrim st.cur).isEmpty then some st.chunks
    else some (st.chunks ++ [⟨jsTrim st.cur, st.idx⟩])

/-- Joining paragraphs back with one blank line, as the chunker's buffer
does. -/
def joinSep : List (List Char) → List Char
  | [] => []
  | [p] => p
  | p :: ps => p ++ '\n' :: '\n' :: joinSep ps

/-- The normal form a short text is chunked to: its kept paragraphs, each
trimmed, joined by one blank line, and trimmed. -/
def normalizeParas (text : List Char) : List Char :=
  jsTrim (joinSep ((paragraphsOf text).map jsTrim))

/-- The buffer after folding further paragraphs onto `acc`. -/
def joinFrom (acc : List Char) (ps : List (List Char)) : List Char :=
  ps.foldl (fun a p => a ++ '\n' :: '\n' :: p) acc

/-- The loop invariant of the paragraph fold: the next index equals the
number of emitted chunks, indices are exactly `0..N-1`, every emitted chunk
fits `maxChars`, and the buffer fits `maxChars`. -/
def ChunkInv (maxChars : Nat) (st : CState) : Prop :=
  st.idx = st.chunks.length ∧
  st.chunks.map ChunkResult.index = List.range st.chunks.length ∧
  (∀ c ∈ st.chunks, c.content.length ≤ maxChars) ∧
  st.cur.length ≤ maxChars

/-- Size accounting of the paragraph split: total paragraph length plus two
per paragraph is bounded by the input length (plus slack two; in skip mode
the pending newline run is free). -/
def splitBoundRHS (cs : List Char) : Option (List Char) → Nat
  | none => (cs.dropWhile (fun c => c = '\n')).length
  | some cur => cs.length + cur.length

end DocRag

namespace Upload

/-- CSV categories assignable by `detectCsvType`
(src/src/app/api/upload/route.ts, `type CsvType`). -/
inductive CsvType
  | products
  | sales
  | inventory
deriving DecidableEq, Repr

/-- The header normalisation applied when building the header set:
`col.toLowerCase().trim().replace(/\s+/g, "_")`. -/
def normalizeHeader (col : String) : String :=
  String.mk (squashWS (jsTrim (col.toList.map Char.toLower)) false)

/-- Membership test in the normalised header set (the JS `Set.has`). -/
def hasCol (headers : List String) (key : String) : Bool :=
  (headers.map normalizeHeader).contains key

/-- First `if` condition of `detectCsvType`: receipt-level or summary
sales columns. -/
def salesSignal (headers : List String) : Bool :=
  hasCol headers "receipt_number" || hasCol headers "payment_type" ||
    hasCol headers "total_money" || hasCol headers "gross_sales" ||
    hasCol headers "net_sales" || hasCol headers "items_sold"

/-- Second `if` condition of `detectCsvType`: `in_stock`,
`low_stock_level`, or `stock` without `price`.  Note the `!price` guard
applies only to the bare `stock` column. -/
def inventorySignal (headers : List String) : Bool :=
  hasCol headers "in_stock" || hasCol headers "low_stock_level" ||
    (hasCol headers "stock" && !hasCol headers "price")

/-- Third `if` condition of `detectCsvType`: `price` plus `cost` or
`category`. -/
def productsSignal (headers : List String) : Bool :=
  hasCol headers "price" && (hasCol headers "cost" || hasCol headers "category")

/-- `detectCsvType` from src/src/app/api/upload/route.ts lines 200-224. -/
def detectCsvType (headers : List String) : Option CsvType :=
  if salesSignal headers then some CsvType.sales
  else if inventorySignal headers then some CsvType.inventory
  else if productsSignal headers then some CsvType.products
  else none

/-- The claim's detection rules, taken at their word: the second rule
reads "presence of stock-level columns *without a price column* implies
inventory", i.e. the no-price guard covers all three stock-level columns,
not just the bare `stock` column. -/
def detectCsvTypeClaimed (headers : List String) : Option CsvType :=
  if salesSignal headers then some CsvType.sales
  else if (hasCol headers "in_stock" || hasCol headers "low_stock_level" ||
      hasCol headers "stock") && !hasCol headers "price" then
    some CsvType.inventory
  else if productsSignal headers then some CsvType.products
  else none

end Upload

namespace DocRag

/-- Failure points inside `ingestDocument`: the embedding provider call,
the `insertMany` of the chunk batch, or the `insertOne` of the document
record (each is an awaited promise that may reject). -/
inductive IngestErr
  | embedFailed
  | chunksWriteFailed
  | docWriteFailed
deriving DecidableEq, Repr

/-- Return shape of `ingestDocument` (`IngestResult` in `rag.ts`). -/
structure IngestResult where
  documentId : String
  chunksCreated : Nat
  title : String
deriving DecidableEq, Repr

/-- `ingestDocument` from src/src/lib/rag.ts lines 700-755, as a state
transformer on the two collections.  `documentId` and `now` stand for the
generated `doc_${Date.now()}_...` id and the wall clock; `embed` is the
`generateBatchEmbeddings` provider call; `chunksWriteOk` / `docWriteOk`
decide whether the two collection writes resolve or reject.  The outer
`Option` propagates non-termination of `chunkText`; the error branch
carries the store state at the moment the rejected promise aborts the
function — the source has no rollback of any kind, so whatever was already
written stays. -/
def ingestDocument (st : RagStore) (restaurant content title ty : String)
    (tags : Option (List String)) (documentId : String) (now chunkSize : Nat)
    (embed : List String → Except IngestErr (List (List ℚ)))
    (chunksWriteOk docWriteOk : Bool) :
    Option (Except (IngestErr × RagStore) (IngestResult × RagStore)) :=
  match chunkText content.toList chunkSize DEFAULT_CHUNK_OVERLAP with
  | none => none
  | some chunks =>
    match embed (chunks.map (fun c => String.mk c.content)) with
    | Except.error e => some (Except.error (e, st))
    | Except.ok embeddings =>
      let chunkDocs : List DocumentChunk :=
        chunks.enum.map (fun p =>
          ⟨none, documentId, restaurant, String.mk p.2.content,
            embeddings.getD p.1 [],
            ⟨ty, title, none, some ("chunk_" ++ toString (p.2.index + 1)),
              none, tags⟩,
            p.2.index, now⟩)
      if chunkDocs.length > 0 ∧ chunksWriteOk = false then
        some (Except.error (IngestErr.chunksWriteFailed, st))
      else
        let st1 : RagStore :=
          if chunkDocs.length > 0 then ⟨st.chunks ++ chunkDocs, st.docs⟩
          else st
        if docWriteOk = false then
          some (Except.error (IngestErr.docWriteFailed, st1))
        else
          some (Except.ok
            (⟨documentId, chunkDocs.length, title⟩,
              ⟨st1.chunks,
                st1.docs ++
                  [⟨none, documentId, restaurant, title, ty, content,
                    chunkDocs.length, now⟩]⟩))

end DocRag

namespace DocRag

theorem lookupEntry_updateEntry_self (m : List (String × FuseEntry))
    (id : String) (s : ℚ) (doc : DocumentChunk) (isVector : Bool) :
    lookupEntry (updateEntry m id s doc isVector) id =
      some (match lookupEntry m id with
            | none => ⟨s, doc, isVector, !isVector⟩
            | some e => ⟨e.score + s, e.doc, e.hasVector || isVector,
                         e.hasText || !isVector⟩) := by
  induction m with
  | nil => simp [updateEntry, lookupEntry]
  | cons p rest ih =>
    obtain ⟨i, e⟩ := p
    by_cases h : i = id
    · subst h
      simp [updateEntry, lookupEntry, List.find?]
    · simp only [updateEntry, if_neg h]
      simpa [lookupEntry, List.find?, h] using ih

theorem lookupEntry_updateEntry_other (m : List (String × FuseEntry))
    (id id' : String) (s : ℚ) (doc : DocumentChunk) (isVector : Bool)
    (h : id' ≠ id) :
    lookupEntry (updateEntry m id s doc isVector) id' = lookupEntry m id' := by
  induction m with
  | nil => simp [updateEntry, lookupEntry, List.find?, fun a => h.symm a]
  | cons p rest ih =>
    obtain ⟨i, e⟩ := p
    by_cases hq : i = id
    · subst hq
      have : ¬ (i = id') := fun a => h (a.symm)
      simp [updateEntry, lookupEntry, List.find?, this]
    · by_cases hq' : i = id'
      · subst hq'
        simp [updateEntry, if_neg hq, lookupEntry, List.find?]
      · simp only [updateEntry, if_neg hq]
        simpa [lookupEntry, List.find?, hq'] using ih

theorem entryScore_addHit (k : Nat) (b : Bool) (m : List (String × FuseEntry))
    (r : RankedResult) (id : String) :
    entryScore (addHit k b m r) id =
      entryScore m id + (if r.id = id then rrfContribution k r.rank else 0) := by
  by_cases h : r.id = id
  · subst h
    rw [entryScore, addHit, lookupEntry_updateEntry_self]
    cases hm : lookupEntry m r.id with
    | none => simp [entryScore, hm]
    | some e => simp [entryScore, hm]
  · rw [entryScore, addHit, lookupEntry_updateEntry_other _ _ _ _ _ _ (fun a => h a.symm)]
    simp [entryScore, h]

theorem entryScore_foldl (k : Nat) (b : Bool) (l : List RankedResult)
    (m : List (String × FuseEntry)) (id : String) :
    entryScore (l.foldl (addHit k b) m) id = entryScore m id + contribSum k l id := by
  induction l generalizing m with
  | nil => simp [contribSum]
  | cons r l ih =>
    rw [List.foldl_cons, ih, entryScore_addHit]
    by_cases h : r.id = id <;> simp [contribSum, h] <;> ring

theorem entryHasVector_addHit (k : Nat) (b : Bool)
    (m : List (String × FuseEntry)) (r : RankedResult) (id : String) :
    entryHasVector (addHit k b m r) id =
      (entryHasVector m id || (b && decide (r.id = id))) := by
  by_cases h : r.id = id
  · subst h
    rw [entryHasVector, addHit, lookupEntry_updateEntry_self]
    cases hm : lookupEntry m r.id with
    | none => cases b <;> simp [entryHasVector, hm]
    | some e => cases b <;> simp [entryHasVector, hm]
  · rw [entryHasVector, addHit,
      lookupEntry_updateEntry_other _ _ _ _ _ _ (fun a => h a.symm)]
    simp [entryHasVector, h]

theorem entryHasText_addHit (k : Nat) (b : Bool)
    (m : List (String × FuseEntry)) (r : RankedResult) (id : String) :
    entryHasText (addHit k b m r) id =
      (entryHasText m id || (!b && decide (r.id = id))) := by
  by_cases h : r.id = id
  · subst h
    rw [entryHasText, addHit, lookupEntry_updateEntry_self]
    cases hm : lookupEntry m r.id with
    | none => cases b <;> simp [entryHasText, hm]
    | some e => cases b <;> simp [entryHasText, hm]
  · rw [entryHasText, addHit,
      lookupEntry_updateEntry_other _ _ _ _ _ _ (fun a => h a.symm)]
    simp [entryHasText, h]

theorem entryHasVector_foldl (k : Nat) (b : Bool) (l : List RankedResult)
    (m : List (String × FuseEntry)) (id : String) :
    entryHasVector (l.foldl (addHit k b) m) id =
      (entryHasVector m id || (b && decide (id ∈ l.map RankedResult.id))) := by
  induction l generalizing m with
  | nil => simp
  | cons r l ih =>
    rw [List.foldl_cons, ih, entryHasVector_addHit]
    by_cases h : r.id = id
    · subst h
      cases b <;> simp
    · have : ¬ (id = r.id) := fun a => h a.symm
      cases b <;> simp [h, this]

theorem entryHasText_foldl (k : Nat) (b : Bool) (l : List RankedResult)
    (m : List (String × FuseEntry)) (id : String) :
    entryHasText (l.foldl (addHit k b) m) id =
      (entryHasText m id || (!b && decide (id ∈ l.map RankedResult.id))) := by
  induction l generalizing m with
  | nil => simp
  | cons r l ih =>
    rw [List.foldl_cons, ih, entryHasText_addHit]
    by_cases h : r.id = id
    · subst h
      cases b <;> simp
    · have : ¬ (id = r.id) := fun a => h a.symm
      cases b <;> simp [h, this]

theorem keys_updateEntry (m : List (String × FuseEntry)) (id : String) (s : ℚ)
    (doc : DocumentChunk) (b : Bool) :
    (updateEntry m id s doc b).map Prod.fst =
      (if id ∈ m.map Prod.fst then m.map Prod.fst else m.map Prod.fst ++ [id]) := by
  induction m with
  | nil => simp [updateEntry]
  | cons p rest ih =>
    obtain ⟨i, e⟩ := p
    by_cases h : i = id
    · subst h
      simp [updateEntry]
    · have : ¬ (id = i) := fun a => h a.symm
      by_cases hm : id ∈ rest.map Prod.fst <;>
        simp [updateEntry, h, this, hm, ih]

theorem keysNodup_updateEntry (m : List (String × FuseEntry)) (id : String)
    (s : ℚ) (doc : DocumentChunk) (b : Bool)
    (h : (m.map Prod.fst).Nodup) :
    ((updateEntry m id s doc b).map Prod.fst).Nodup := by
  rw [keys_updateEntry]
  by_cases hm : id ∈ m.map Prod.fst
  · simpa [hm] using h
  · simp only [hm, if_false]
    refine List.Nodup.append h (List.nodup_singleton id) ?_
    intro a ha hb
    rw [List.mem_singleton] at hb
    subst hb
    exact hm ha

theorem keysNodup_foldl (k : Nat) (b : Bool) (l : List RankedResult)
    (m : List (String × FuseEntry)) (h : (m.map Prod.fst).Nodup) :
    ((l.foldl (addHit k b) m).map Prod.fst).Nodup := by
  induction l generalizing m with
  | nil => simpa using h
  | cons r l ih =>
    rw [List.foldl_cons]
    exact ih _ (keysNodup_updateEntry _ _ _ _ _ h)

theorem keysNodup_rrfScores (k : Nat) (v t : List RankedResult) :
    ((rrfScores k v t).map Prod.fst).Nodup := by
  exact keysNodup_foldl _ _ _ _ (keysNodup_foldl _ _ _ _ (by simp))

theorem lookupEntry_of_mem (m : List (String × FuseEntry)) (id : String)
    (e : FuseEntry) (hnd : (m.map Prod.fst).Nodup) (h : (id, e) ∈ m) :
    lookupEntry m id = some e := by
  induction m with
  | nil => simp at h
  | cons p rest ih =>
    obtain ⟨i, e'⟩ := p
    have hnd' : i ∉ rest.map Prod.fst ∧ (rest.map Prod.fst).Nodup := by
      simpa using hnd
    rcases List.mem_cons.mp h with h1 | h2
    · injection h1 with ha hb
      subst ha
      subst hb
      simp [lookupEntry, List.find?]
    · have hi : i ≠ id := by
        rintro rfl
        exact hnd'.1 (by simpa using List.mem_map_of_mem Prod.fst h2)
      have := ih hnd'.2 h2
      simpa [lookupEntry, List.find?, hi] using this

theorem doc_mem_updateEntry (m : List (String × FuseEntry)) (id : String)
    (s : ℚ) (doc : DocumentChunk) (b : Bool) (p : String × FuseEntry)
    (h : p ∈ updateEntry m id s doc b) :
    p.2.doc ∈ m.map (fun q => q.2.doc) ∨ p.2.doc = doc := by
  induction m with
  | nil =>
    simp only [updateEntry, List.mem_singleton] at h
    subst h
    right
    rfl
  | cons q rest ih =>
    obtain ⟨i, e⟩ := q
    by_cases hq : i = id
    · subst hq
      simp only [updateEntry, if_pos rfl] at h
      rcases List.mem_cons.mp h with h1 | h2
      · subst h1
        left
        simp
      · left
        simp only [List.map_cons, List.mem_cons]
        right
        exact List.mem_map_of_mem (fun q => q.2.doc) h2
    · simp only [updateEntry, if_neg hq] at h
      rcases List.mem_cons.mp h with h1 | h2
      · subst h1
        left
        simp
      · rcases ih h2 with h3 | h3
        · left
          simp only [List.map_cons, List.mem_cons]
          right
          exact h3
        · right
          exact h3

theorem docs_addHit (k : Nat) (b : Bool) (m : List (String × FuseEntry))
    (r : RankedResult) (d : DocumentChunk)
    (h : d ∈ (addHit k b m r).map (fun q => q.2.doc)) :
    d ∈ m.map (fun q => q.2.doc) ∨ d = r.doc := by
  rcases List.mem_map.mp h with ⟨p, hp, hd⟩
  subst hd
  exact doc_mem_updateEntry _ _ _ _ _ _ hp

theorem docs_foldl (k : Nat) (b : Bool) (l : List RankedResult)
    (m : List (String × FuseEntry)) (d : DocumentChunk)
    (h : d ∈ (l.foldl (addHit k b) m).map (fun q => q.2.doc)) :
    d ∈ m.map (fun q => q.2.doc) ∨ d ∈ l.map RankedResult.doc := by
  induction l generalizing m with
  | nil => left; simpa using h
  | cons r l ih =>
    rw [List.foldl_cons] at h
    rcases ih _ h with h1 | h1
    · rcases docs_addHit _ _ _ _ _ h1 with h2 | h2
      · left; exact h2
      · right; simp [h2]
    · right
      simp only [List.map_cons, List.mem_cons]
      right
      exact h1

theorem doc_mem_rrfScores (k : Nat) (v t : List RankedResult)
    (p : String × FuseEntry) (h : p ∈ rrfScores k v t) :
    p.2.doc ∈ v.map RankedResult.doc ∨ p.2.doc ∈ t.map RankedResult.doc := by
  have hd : p.2.doc ∈ (rrfScores k v t).map (fun q => q.2.doc) :=
    List.mem_map_of_mem (fun q => q.2.doc) h
  rcases docs_foldl _ _ _ _ _ hd with h1 | h1
  · rcases docs_foldl _ _ _ _ _ h1 with h2 | h2
    · simp at h2
    · left; exact h2
  · right; exact h1

theorem sorted_orderedInsert_score (a : String × FuseEntry)
    (l : List (String × FuseEntry))
    (h : l.Sorted fun p q => q.2.score ≤ p.2.score) :
    (l.orderedInsert scoreAbove a).Sorted fun p q => q.2.score ≤ p.2.score := by
  induction l with
  | nil => simp [List.orderedInsert]
  | cons b l ih =>
    rw [List.orderedInsert]
    by_cases hab : scoreAbove a b
    · rw [if_pos hab, List.sorted_cons]
      refine ⟨?_, h⟩
      intro c hc
      rcases List.mem_cons.mp hc with rfl | hc
      · exact le_of_lt hab
      · exact le_trans ((List.sorted_cons.mp h).1 c hc) (le_of_lt hab)
    · rw [if_neg hab, List.sorted_cons]
      have hs := List.sorted_cons.mp h
      refine ⟨?_, ih hs.2⟩
      intro c hc
      rcases (List.mem_orderedInsert scoreAbove).mp hc with rfl | hc
      · exact le_of_not_lt hab
      · exact hs.1 c hc

theorem sorted_insertionSort_score (m : List (String × FuseEntry)) :
    (m.insertionSort scoreAbove).Sorted fun p q => q.2.score ≤ p.2.score := by
  induction m with
  | nil => simp [List.insertionSort]
  | cons a m ih =>
    rw [List.insertionSort]
    exact sorted_orderedInsert_score _ _ ih

theorem reciprocalRankFusion_sorted (v t : List RankedResult) (k : Nat) :
    (reciprocalRankFusion v t k).Sorted fun a b => b.score ≤ a.score := by
  rw [reciprocalRankFusion, List.Sorted, List.pairwise_map]
  exact sorted_insertionSort_score _

theorem rrfScores_entry_characterization (k : Nat) (v t : List RankedResult)
    (id : String) (e : FuseEntry) (h : (id, e) ∈ rrfScores k v t) :
    e.score = contribSum k v id + contribSum k t id ∧
    e.hasVector = decide (id ∈ v.map RankedResult.id) ∧
    e.hasText = decide (id ∈ t.map RankedResult.id) := by
  have hl := lookupEntry_of_mem _ _ _ (keysNodup_rrfScores k v t) h
  refine ⟨?_, ?_, ?_⟩
  · have h1 : entryScore (rrfScores k v t) id =
        contribSum k v id + contribSum k t id := by
      rw [rrfScores, entryScore_foldl, entryScore_foldl]
      simp [entryScore, lookupEntry]
    have h2 : entryScore (rrfScores k v t) id = e.score := by
      simp [entryScore, hl]
    rw [← h2, h1]
  · have h1 : entryHasVector (rrfScores k v t) id =
        decide (id ∈ v.map RankedResult.id) := by
      rw [rrfScores, entryHasVector_foldl, entryHasVector_foldl]
      simp [entryHasVector, lookupEntry]
    have h2 : entryHasVector (rrfScores k v t) id = e.hasVector := by
      simp [entryHasVector, hl]
    rw [← h2, h1]
  · have h1 : entryHasText (rrfScores k v t) id =
        decide (id ∈ t.map RankedResult.id) := by
      rw [rrfScores, entryHasText_foldl, entryHasText_foldl]
      simp [entryHasText, lookupEntry]
    have h2 : entryHasText (rrfScores k v t) id = e.hasText := by
      simp [entryHasText, hl]
    rw [← h2, h1]

theorem key_mem_foldl (k : Nat) (b : Bool) (l : List RankedResult)
    (m : List (String × FuseEntry)) (id : String)
    (h : id ∈ (l.foldl (addHit k b) m).map Prod.fst) :
    id ∈ m.map Prod.fst ∨ id ∈ l.map RankedResult.id := by
  induction l generalizing m with
  | nil => left; simpa using h
  | cons r l ih =>
    rw [List.foldl_cons] at h
    rcases ih _ h with h1 | h1
    · rw [addHit, keys_updateEntry] at h1
      by_cases hm : r.id ∈ m.map Prod.fst
      · rw [if_pos hm] at h1
        left
        exact h1
      · rw [if_neg hm] at h1
        rcases List.mem_append.mp h1 with h2 | h2
        · left; exact h2
        · right
          rw [List.mem_singleton] at h2
          simp [h2]
    · right
      simp only [List.map_cons, List.mem_cons]
      right
      exact h1

theorem key_mem_rrfScores (k : Nat) (v t : List RankedResult) (id : String)
    (e : FuseEntry) (h : (id, e) ∈ rrfScores k v t) :
    id ∈ v.map RankedResult.id ∨ id ∈ t.map RankedResult.id := by
  have hk : id ∈ (rrfScores k v t).map Prod.fst :=
    List.mem_map_of_mem Prod.fst h
  rcases key_mem_foldl _ _ _ _ _ hk with h1 | h1
  · rcases key_mem_foldl _ _ _ _ _ h1 with h2 | h2
    · simp at h2
    · left; exact h2
  · right; exact h1

/-- C1: for every pair of ranked input lists, `reciprocalRankFusion` gives a
hit at rank `r` the contribution `1/(k+r)`, sums contributions across both
lists merged by the chunk id, sorts by descending fused score, and tags a
chunk found in both lists `both` (otherwise the provenance of its single
list); with `k = 60` a rank-1 hit in one list scores `1/61`, a hit at rank 1
in both lists scores `2/61` and strictly beats any rank-1-only hit, and
fusing two empty lists yields the empty result. -/
theorem claim_C1_reciprocal_rank_fusion :
    (∀ (k : Nat) (v t : List RankedResult), ∀ r ∈ reciprocalRankFusion v t k,
      ∃ id e, (id, e) ∈ rrfScores k v t ∧ r = e.toSearchResult ∧
        r.score = contribSum k v id + contribSum k t id ∧
        (r.source = Source.both ↔
          id ∈ v.map RankedResult.id ∧ id ∈ t.map RankedResult.id) ∧
        (r.source = Source.vector ↔
          id ∈ v.map RankedResult.id ∧ id ∉ t.map RankedResult.id) ∧
        (r.source = Source.text ↔
          id ∉ v.map RankedResult.id ∧ id ∈ t.map RankedResult.id)) ∧
    (∀ (k : Nat) (v t : List RankedResult),
      (reciprocalRankFusion v t k).Sorted fun a b => b.score ≤ a.score) ∧
    (∀ k : Nat, reciprocalRankFusion [] [] k = []) ∧
    reciprocalRankFusion [⟨"c1", 1, sampleChunk⟩] [] 60 =
      [{ content := "hello", metadata := sampleMetadata, score := 1/61,
         source := Source.vector, document_id := "d1" }] ∧
    reciprocalRankFusion [] [⟨"c1", 1, sampleChunk⟩] 60 =
      [{ content := "hello", metadata := sampleMetadata, score := 1/61,
         source := Source.text, document_id := "d1" }] ∧
    reciprocalRankFusion [⟨"c1", 1, sampleChunk⟩] [⟨"c1", 1, sampleChunk⟩] 60 =
      [{ content := "hello", metadata := sampleMetadata, score := 2/61,
         source := Source.both, document_id := "d1" }] ∧
    (∀ r1 ∈ reciprocalRankFusion [⟨"c1", 1, sampleChunk⟩] [] 60,
     ∀ r2 ∈ reciprocalRankFusion [⟨"c1", 1, sampleChunk⟩]
              [⟨"c1", 1, sampleChunk⟩] 60, r1.score < r2.score) := by
  have e1 : reciprocalRankFusion [⟨"c1", 1, sampleChunk⟩] [] 60 =
      [{ content := "hello", metadata := sampleMetadata, score := 1/61,
         source := Source.vector, document_id := "d1" }] := by
    simp [reciprocalRankFusion, rrfScores, addHit, updateEntry,
      rrfContribution, FuseEntry.toSearchResult, sampleChunk, sampleMetadata,
      List.insertionSort, List.orderedInsert]
    norm_num
  have e2 : reciprocalRankFusion [] [⟨"c1", 1, sampleChunk⟩] 60 =
      [{ content := "hello", metadata := sampleMetadata, score := 1/61,
         source := Source.text, document_id := "d1" }] := by
    simp [reciprocalRankFusion, rrfScores, addHit, updateEntry,
      rrfContribution, FuseEntry.toSearchResult, sampleChunk, sampleMetadata,
      List.insertionSort, List.orderedInsert]
    norm_num
  have e3 : reciprocalRankFusion [⟨"c1", 1, sampleChunk⟩]
      [⟨"c1", 1, sampleChunk⟩] 60 =
      [{ content := "hello", metadata := sampleMetadata, score := 2/61,
         source := Source.both, document_id := "d1" }] := by
    simp [reciprocalRankFusion, rrfScores, addHit, updateEntry,
      rrfContribution, FuseEntry.toSearchResult, sampleChunk, sampleMetadata,
      List.insertionSort, List.orderedInsert]
    norm_num
  refine ⟨?_, fun k v t => reciprocalRankFusion_sorted v t k, ?_, e1, e2, e3, ?_⟩
  · intro k v t r hr
    rw [reciprocalRankFusion] at hr
    rcases List.mem_map.mp hr with ⟨p, hp, rfl⟩
    have hpm : p ∈ rrfScores k v t :=
      (List.perm_insertionSort scoreAbove _).subset hp
    obtain ⟨id, e⟩ := p
    have hchar := rrfScores_entry_characterization k v t id e hpm
    refine ⟨id, e, hpm, rfl, hchar.1, ?_, ?_, ?_⟩
    · by_cases hv : id ∈ v.map RankedResult.id <;>
        by_cases ht : id ∈ t.map RankedResult.id <;>
        simp [FuseEntry.toSearchResult, hchar.2.1, hchar.2.2, hv, ht]
    · by_cases hv : id ∈ v.map RankedResult.id <;>
        by_cases ht : id ∈ t.map RankedResult.id <;>
        simp [FuseEntry.toSearchResult, hchar.2.1, hchar.2.2, hv, ht]
    · by_cases hv : id ∈ v.map RankedResult.id <;>
        by_cases ht : id ∈ t.map RankedResult.id <;>
        simp [FuseEntry.toSearchResult, hchar.2.1, hchar.2.2, hv, ht] <;>
        exact (key_mem_rrfScores k v t id e hpm).elim
          (fun hx => absurd hx hv) (fun hx => absurd hx ht)
  · intro k
    rfl
  · intro r1 h1 r2 h2
    rw [e1, List.mem_singleton] at h1
    rw [e3, List.mem_singleton] at h2
    subst h1
    subst h2
    norm_num

theorem claim_C1_reciprocal_rank_fusion_witness :
    ∃ id e, (id, e) ∈ rrfScores 60 [⟨"c1", 1, sampleChunk⟩] [] ∧
      ({ content := "hello", metadata := sampleMetadata, score := 1/61,
         source := Source.vector, document_id := "d1" } : SearchResult) =
        e.toSearchResult := by
  obtain ⟨id, e, hm, he, _⟩ :=
    claim_C1_reciprocal_rank_fusion.1 60 [⟨"c1", 1, sampleChunk⟩] []
      { content := "hello", metadata := sampleMetadata, score := 1/61,
        source := Source.vector, document_id := "d1" }
      (by
        simp [reciprocalRankFusion, rrfScores, addHit, updateEntry,
          rrfContribution, FuseEntry.toSearchResult, sampleChunk,
          sampleMetadata, List.insertionSort, List.orderedInsert]
        norm_num)
  exact ⟨id, e, hm, he⟩

theorem toRanked_docs (tag : String) (l : List DocumentChunk)
    (d : DocumentChunk) (h : d ∈ (toRanked tag l).map RankedResult.doc) :
    d ∈ l := by
  rcases List.mem_map.mp h with ⟨r, hr, rfl⟩
  rcases List.mem_map.mp hr with ⟨p, hp, rfl⟩
  exact (List.mem_enum_iff_getElem? ..).mp hp |> fun hg => by
    exact List.getElem?_mem hg

/-- C2: after any ingests into tenant `A`, a `hybridSearch` under a distinct
tenant `B` never returns one of `A`'s chunks: every returned result carries
the content, metadata and document id of a chunk of the base store whose
`restaurant` field is `B`.  The vector engine is assumed to select from the
candidate set it is given (that set is already tenant-filtered by the
`$vectorSearch` `filter`); the text branch needs no such assumption because
the `$match` stage filters on `restaurant` inside the core. -/
theorem claim_C2_tenant_isolation
    (base extra : List DocumentChunk) (A B : String) (hAB : A ≠ B)
    (hextra : ∀ c ∈ extra, c.restaurant = A)
    (embedQuery : String → Except SearchErr (List ℚ))
    (vecEngine : List ℚ → List DocumentChunk →
      Except SearchErr (List DocumentChunk))
    (textEngine : String → List DocumentChunk →
      Except SearchErr (List DocumentChunk))
    (hvec : ∀ emb l out, vecEngine emb l = Except.ok out → ∀ c ∈ out, c ∈ l)
    (htext : ∀ q l out, textEngine q l = Except.ok out → ∀ c ∈ out, c ∈ l)
    (query : String) (limit : Nat) (results : List SearchResult)
    (hrun : hybridSearch (base ++ extra) embedQuery vecEngine textEngine
      B query limit = Except.ok results) :
    ∀ r ∈ results, ∃ c ∈ base, c.restaurant = B ∧ r.content = c.content ∧
      r.metadata = c.metadata ∧ r.document_id = c.document_id := by
  intro r hr
  unfold hybridSearch at hrun
  cases hemb : embedQuery query with
  | error e => rw [hemb] at hrun; simp at hrun
  | ok emb =>
    rw [hemb] at hrun
    dsimp only at hrun
    cases hv : vecEngine emb
        ((base ++ extra).filter (fun c => c.restaurant == B)) with
    | error e => rw [hv] at hrun; simp at hrun
    | ok vecAll =>
      rw [hv] at hrun
      cases ht : textEngine query (base ++ extra) with
      | error e => rw [ht] at hrun; simp at hrun
      | ok textAll =>
        rw [ht] at hrun
        dsimp only at hrun
        rw [Except.ok.injEq] at hrun
        subst hrun
        have hr' := List.mem_of_mem_take hr
        rw [reciprocalRankFusion] at hr'
        rcases List.mem_map.mp hr' with ⟨p, hp, rfl⟩
        have hpm := (List.perm_insertionSort scoreAbove _).subset hp
        have hdoc := doc_mem_rrfScores _ _ _ _ hpm
        have hstore : p.2.doc ∈ base ++ extra ∧ p.2.doc.restaurant = B := by
          rcases hdoc with hd | hd
          · have := toRanked_docs _ _ _ hd
            have h2 := List.mem_of_mem_take this
            have h3 := List.mem_filter.mp (hvec _ _ _ hv _ h2)
            exact ⟨h3.1, by simpa using h3.2⟩
          · have := toRanked_docs _ _ _ hd
            have h2 := List.mem_of_mem_take this
            have h3 := List.mem_filter.mp h2
            exact ⟨htext _ _ _ ht _ h3.1, by simpa using h3.2⟩
        have hbase : p.2.doc ∈ base := by
          rcases List.mem_append.mp hstore.1 with hb | hb
          · exact hb
          · exact absurd (hextra _ hb) (by rw [hstore.2]; exact fun a => hAB a.symm)
        exact ⟨p.2.doc, hbase, hstore.2, rfl, rfl, rfl⟩

theorem claim_C2_tenant_isolation_witness :
    ∃ c ∈ [chunkTenantB], c.restaurant = "b" ∧ "bee" = c.content ∧
      sampleMetadata = c.metadata ∧ "db" = c.document_id := by
  exact claim_C2_tenant_isolation [chunkTenantB] [chunkTenantA] "a" "b"
    (by decide)
    (by intro c hc; rw [List.mem_singleton] at hc; subst hc; rfl)
    (fun _ => Except.ok []) (fun _ l => Except.ok l) (fun _ l => Except.ok l)
    (by intro emb l out h c hc; injection h with h; subst h; exact hc)
    (by intro q l out h c hc; injection h with h; subst h; exact hc)
    "q" 5 _
    (by
      simp [hybridSearch, reciprocalRankFusion, rrfScores, addHit,
        updateEntry, rrfContribution, FuseEntry.toSearchResult, toRanked,
        rankedId, chunkTenantB, chunkTenantA, sampleMetadata, RRF_K,
        List.insertionSort, List.orderedInsert, List.enum, List.enumFrom]
      norm_num)
    { content := "bee", metadata := sampleMetadata, score := 2/61,
      source := Source.both, document_id := "db" }
    (List.mem_singleton_self _)

end DocRag

namespace CsvRag

/-- C5 (amended): in the CSV-path retriever a failing lexical engine (for
example a missing `text_index`) degrades to an empty lexical list and the
retrieval still succeeds with the semantic results fused alone, while a
semantic failure (or an embedding failure) is fatal; the document-path
`hybridSearch` of the large `rag.ts` has no such catch, so a lexical failure
fails that whole retrieval (see the counterexample). -/
theorem claim_C5_lexical_degradation :
    (∀ e, textSearch (Except.error e) = []) ∧
    (∀ (emb : List ℚ) (v : List CsvSearchResult) (e : DocRag.SearchErr)
        (limit : Nat),
      hybridSearch (Except.ok emb) (Except.ok v) (Except.error e) limit =
        Except.ok ((reciprocalRankFusion v []).take limit)) ∧
    (∀ (emb : List ℚ)
        (tRes : Except DocRag.SearchErr (List CsvSearchResult))
        (e : DocRag.SearchErr) (limit : Nat),
      hybridSearch (Except.ok emb) (Except.error e) tRes limit =
        Except.error e) ∧
    (∀ (vRes tRes : Except DocRag.SearchErr (List CsvSearchResult))
        (e : DocRag.SearchErr) (limit : Nat),
      hybridSearch (Except.error e) vRes tRes limit = Except.error e) := by
  refine ⟨fun e => rfl, fun emb v e limit => rfl,
    fun emb tRes e limit => rfl, fun vRes tRes e limit => rfl⟩

/-- C5 counterexample: in the document-path `hybridSearch` a retrieval whose
lexical engine alone fails with a missing index does not succeed — the whole
call returns that error, refuting "every retrieval still succeeds". -/
theorem claim_C5_counterexample :
    DocRag.hybridSearch [DocRag.sampleChunk] (fun _ => Except.ok [])
      (fun _ l => Except.ok l)
      (fun _ _ => Except.error DocRag.SearchErr.indexNotFound)
      "fika" "fryer cleaning" 5 =
      Except.error DocRag.SearchErr.indexNotFound := rfl

/-- C9: the pre-insert cleanup removes every stored chunk whose
`metadata.filename` matches the uploaded name, across all tenants — in
particular a chunk of tenant `A` is removed by tenant `B`'s upload of a
same-named file; chunks with other filenames survive regardless of tenant;
the reported count is the number of matching chunks; and the cleanup result
does not depend on the uploading tenant at all. -/
theorem claim_C9_filename_delete_crosses_tenants :
    (∀ (store : List CsvChunk) (F A B : String) (c : CsvChunk),
      c ∈ store → c.metadata.restaurant = A → c.metadata.filename = F →
        c ∉ (uploadCleanup B F store).1) ∧
    (∀ (store : List CsvChunk) (F : String) (c : CsvChunk),
      c ∈ store → c.metadata.filename ≠ F →
        c ∈ (deleteByFilename store F).1) ∧
    (∀ (store : List CsvChunk) (F : String),
      (deleteByFilename store F).2 =
        (store.filter (fun c => c.metadata.filename == F)).length) ∧
    (∀ (A B F : String) (store : List CsvChunk),
      uploadCleanup A F store = uploadCleanup B F store) := by
  refine ⟨?_, ?_, fun store F => rfl, fun A B F store => rfl⟩
  · intro store F A B c hc hA hF hmem
    have := (List.mem_filter.mp hmem).2
    rw [hF] at this
    simp at this
  · intro store F c hc hne
    refine List.mem_filter.mpr ⟨hc, ?_⟩
    simp [hne]

theorem claim_C9_filename_delete_crosses_tenants_witness :
    (⟨some "x1", "row", [], ⟨"a", "products", "menu.csv", 0, "t0"⟩⟩ : CsvChunk) ∉
      (uploadCleanup "b" "menu.csv"
        [⟨some "x1", "row", [], ⟨"a", "products", "menu.csv", 0, "t0"⟩⟩]).1 ∧
    (⟨some "x2", "row2", [], ⟨"a", "products", "other.csv", 0, "t0"⟩⟩ : CsvChunk) ∈
      (deleteByFilename
        [⟨some "x2", "row2", [], ⟨"a", "products", "other.csv", 0, "t0"⟩⟩]
        "menu.csv").1 := by
  constructor
  · exact claim_C9_filename_delete_crosses_tenants.1 _ "menu.csv" "a" "b" _
      (List.mem_singleton_self _) rfl rfl
  · exact claim_C9_filename_delete_crosses_tenants.2.1 _ "menu.csv" _
      (List.mem_singleton_self _) (by decide)

end CsvRag

namespace DocRag

theorem deleteOneDoc_pos_iff (docs : List StoredDocument)
    (restaurant documentId : String) :
    0 < (deleteOneDoc docs restaurant documentId).2 ↔
      ∃ d ∈ docs, d.restaurant = restaurant ∧ d.document_id = documentId := by
  induction docs with
  | nil => simp [deleteOneDoc]
  | cons d rest ih =>
    by_cases h : d.restaurant == restaurant && d.document_id == documentId
    · simp only [deleteOneDoc, if_pos h]
      simp only [Bool.and_eq_true, beq_iff_eq] at h
      simp [h]
    · simp only [deleteOneDoc, if_neg h]
      simp only [Bool.and_eq_true, beq_iff_eq] at h
      rw [Decidable.not_and_iff_or_not] at h
      constructor
      · intro hp
        rcases ih.mp hp with ⟨x, hx, hxe⟩
        exact ⟨x, List.mem_cons_of_mem _ hx, hxe⟩
      · intro ⟨x, hx, hxe⟩
        rcases List.mem_cons.mp hx with rfl | hx
        · exact absurd hxe (by tauto)
        · exact ih.mpr ⟨x, hx, hxe⟩

theorem deleteOneDoc_noop (docs : List StoredDocument)
    (restaurant documentId : String)
    (h : ∀ d ∈ docs, ¬(d.restaurant = restaurant ∧ d.document_id = documentId)) :
    deleteOneDoc docs restaurant documentId = (docs, 0) := by
  induction docs with
  | nil => rfl
  | cons d rest ih =>
    have hd : ¬(d.restaurant == restaurant && d.document_id == documentId) := by
      have := h d (List.mem_cons_self d rest)
      simp only [Bool.and_eq_true, beq_iff_eq]
      tauto
    rw [deleteOneDoc, if_neg hd, ih (fun x hx => h x (List.mem_cons_of_mem _ hx))]

/-- C7: `deleteDocument` removes exactly the chunks matching the
`(restaurant, document_id)` pair and the first matching document record,
returns the removed-chunk count and whether a document record was found and
removed, and on a `(restaurant, documentId)` with no matching document and
no matching chunks it returns `{chunksDeleted := 0, documentDeleted :=
false}` with the store unchanged — an idempotent no-op, not an error. -/
theorem claim_C7_delete_document (st : RagStore)
    (restaurant documentId : String) :
    (deleteDocument st restaurant documentId).2.chunksDeleted =
      (st.chunks.filter (fun c =>
        c.restaurant == restaurant && c.document_id == documentId)).length ∧
    ((deleteDocument st restaurant documentId).2.documentDeleted = true ↔
      ∃ d ∈ st.docs, d.restaurant = restaurant ∧
        d.document_id = documentId) ∧
    (deleteDocument st restaurant documentId).1.chunks =
      st.chunks.filter (fun c =>
        !(c.restaurant == restaurant && c.document_id == documentId)) ∧
    ((∀ c ∈ st.chunks,
        ¬(c.restaurant = restaurant ∧ c.document_id = documentId)) →
     (∀ d ∈ st.docs,
        ¬(d.restaurant = restaurant ∧ d.document_id = documentId)) →
      deleteDocument st restaurant documentId = (st, ⟨0, false⟩)) := by
  refine ⟨rfl, ?_, rfl, ?_⟩
  · simp only [deleteDocument, decide_eq_true_eq]
    exact deleteOneDoc_pos_iff st.docs restaurant documentId
  · intro hc hd
    have h1 : st.chunks.filter (fun c =>
        !(c.restaurant == restaurant && c.document_id == documentId)) =
        st.chunks := by
      apply List.filter_eq_self.mpr
      intro c hcm
      have := hc c hcm
      simp only [Bool.not_eq_eq_eq_not, Bool.not_true, Bool.and_eq_true,
        beq_iff_eq]
      simp only [Bool.not_eq_true', Bool.and_eq_false_iff, beq_eq_false_iff_ne]
      tauto
    have h2 : st.chunks.filter (fun c =>
        c.restaurant == restaurant && c.document_id == documentId) = [] := by
      rw [List.filter_eq_nil_iff]
      intro c hcm
      have := hc c hcm
      simp only [Bool.and_eq_true, beq_iff_eq]
      tauto
    simp only [deleteDocument]
    rw [deleteOneDoc_noop st.docs restaurant documentId hd, h1, h2]
    rfl

theorem claim_C7_delete_document_witness :
    deleteDocument ⟨[chunkTenantA], [⟨none, "da", "a", "T", "sop", "x", 1, 0⟩]⟩
      "b" "missing" =
      (⟨[chunkTenantA], [⟨none, "da", "a", "T", "sop", "x", 1, 0⟩]⟩,
       ⟨0, false⟩) := by
  exact (claim_C7_delete_document
    ⟨[chunkTenantA], [⟨none, "da", "a", "T", "sop", "x", 1, 0⟩]⟩
    "b" "missing").2.2.2 (by decide) (by decide)

theorem bucketGet_assignBucket (tc : TypeCounts) (p : String × Nat)
    (key : String) (hkey : key ∈ typeKeys) :
    bucketGet (assignBucket tc p) key =
      if p.1 = key then p.2 else bucketGet tc key := by
  fin_cases hkey <;>
    by_cases hp1 : p.1 = "menu" <;>
    by_cases hp2 : p.1 = "recipe" <;>
    by_cases hp3 : p.1 = "sop" <;>
    by_cases hp4 : p.1 = "policy" <;>
    by_cases hp5 : p.1 = "manual" <;>
    by_cases hp6 : p.1 = "other" <;>
    simp_all [assignBucket, bucketGet, apply_ite]

theorem bucketGet_foldl_of_absent (agg : List (String × Nat))
    (tc : TypeCounts) (key : String) (hkey : key ∈ typeKeys)
    (h : ∀ p ∈ agg, p.1 ≠ key) :
    bucketGet (agg.foldl assignBucket tc) key = bucketGet tc key := by
  induction agg generalizing tc with
  | nil => rfl
  | cons p rest ih =>
    rw [List.foldl_cons, ih _ (fun q hq => h q (List.mem_cons_of_mem _ hq)),
      bucketGet_assignBucket _ _ _ hkey,
      if_neg (h p (List.mem_cons_self p rest))]

theorem bucketGet_buildTypeCounts (ds : List StoredDocument) (key : String)
    (hkey : key ∈ typeKeys) :
    bucketGet (buildTypeCounts (typeAgg ds)) key =
      (ds.filter (fun d => d.type == key)).length := by
  by_cases hmem : key ∈ (ds.map (fun d => d.type)).dedup
  · rcases List.append_of_mem hmem with ⟨s, t, hst⟩
    have hnd : ((ds.map (fun d => d.type)).dedup).Nodup := List.nodup_dedup _
    rw [hst] at hnd
    have hkst : key ∉ s ++ t :=
      (List.nodup_cons.mp (List.nodup_middle.mp hnd)).1
    rw [buildTypeCounts, typeAgg, hst, List.map_append, List.map_cons,
      List.foldl_append, List.foldl_cons]
    rw [bucketGet_foldl_of_absent _ _ _ hkey]
    · rw [bucketGet_assignBucket _ _ _ hkey, if_pos rfl]
    · intro p hp
      rcases List.mem_map.mp hp with ⟨ty, hty, rfl⟩
      intro hcon
      have hty' : ty = key := hcon
      rw [hty'] at hty
      exact hkst (List.mem_append.mpr (Or.inr hty))
  · have hnone : ∀ d ∈ ds, d.type ≠ key := by
      intro d hd hcon
      exact hmem (List.mem_dedup.mpr (hcon ▸ List.mem_map_of_mem _ hd))
    have hfil : ds.filter (fun d => d.type == key) = [] := by
      rw [List.filter_eq_nil_iff]
      intro d hd
      simpa using hnone d hd
    rw [hfil]
    rw [buildTypeCounts]
    rw [bucketGet_foldl_of_absent _ _ _ hkey]
    · fin_cases hkey <;> rfl
    · intro p hp
      rcases List.mem_map.mp (by rw [typeAgg] at hp; exact hp) with ⟨ty, hty, rfl⟩
      intro hcon
      have hty' : ty = key := hcon
      rw [hty'] at hty
      exact hmem hty

theorem count_ite_sum (x : String) (keys : List String) :
    (keys.map (fun k => if x = k then 1 else 0)).sum = keys.count x := by
  induction keys with
  | nil => rfl
  | cons k rest ih =>
    rw [List.map_cons, List.sum_cons, ih, List.count_cons]
    by_cases h : x = k
    · rw [if_pos h, if_pos (beq_iff_eq.mpr h.symm)]
      omega
    · rw [if_neg h, if_neg (by simpa using fun a => h a.symm)]
      omega

theorem sum_map_add_split (keys : List String) (f g : String → Nat) :
    (keys.map (fun k => f k + g k)).sum = (keys.map f).sum + (keys.map g).sum := by
  induction keys with
  | nil => rfl
  | cons k rest ih =>
    simp only [List.map_cons, List.sum_cons, ih]
    omega

theorem length_eq_typeSum_add_outside (ds : List StoredDocument) :
    ds.length =
      (typeKeys.map (fun k => (ds.filter (fun d => d.type == k)).length)).sum
        + (ds.filter (fun d => decide (d.type ∉ typeKeys))).length := by
  induction ds with
  | nil => simp
  | cons d rest ih =>
    have hstep : (typeKeys.map (fun k =>
        ((d :: rest).filter (fun d => d.type == k)).length)).sum =
        (typeKeys.map (fun k =>
          (rest.filter (fun d => d.type == k)).length)).sum
          + typeKeys.count d.type := by
      have hmap : typeKeys.map (fun k =>
          ((d :: rest).filter (fun d => d.type == k)).length) =
          typeKeys.map (fun k =>
            (rest.filter (fun d => d.type == k)).length
              + (if d.type = k then 1 else 0)) := by
        apply List.map_congr_left
        intro k _
        rw [List.filter_cons]
        by_cases h : d.type = k <;> simp [h]
      rw [hmap, sum_map_add_split, count_ite_sum]
    have houtside : ((d :: rest).filter
        (fun d => decide (d.type ∉ typeKeys))).length =
        (rest.filter (fun d => decide (d.type ∉ typeKeys))).length
          + (if d.type ∈ typeKeys then 0 else 1) := by
      rw [List.filter_cons]
      by_cases h : d.type ∈ typeKeys <;> simp [h]
    rw [List.length_cons, hstep, houtside, ih]
    by_cases h : d.type ∈ typeKeys
    · rw [List.count_eq_one_of_mem (by decide) h, if_pos h]
      omega
    · rw [List.count_eq_zero_of_not_mem (by simpa using h), if_neg h]
      omega

theorem setOwn_fresh (l : List (String × Nat)) (k : String) (n : Nat)
    (h : ∀ q ∈ l, q.1 ≠ k) : setOwn l k n = l ++ [(k, n)] := by
  induction l with
  | nil => rfl
  | cons q rest ih =>
    rw [setOwn, if_neg (h q (List.mem_cons_self q rest)),
      ih (fun p hp => h p (List.mem_cons_of_mem _ hp)), List.cons_append]

theorem extra_assignBucket (tc : TypeCounts) (p : String × Nat) :
    (assignBucket tc p).extra =
      if protoDataProps.contains p.1 then setOwn tc.extra p.1 p.2
      else tc.extra := by
  by_cases hc : protoDataProps.contains p.1 = true
  · have h1 : p.1 ≠ "menu" := fun h => absurd (h ▸ hc) (by decide)
    have h2 : p.1 ≠ "recipe" := fun h => absurd (h ▸ hc) (by decide)
    have h3 : p.1 ≠ "sop" := fun h => absurd (h ▸ hc) (by decide)
    have h4 : p.1 ≠ "policy" := fun h => absurd (h ▸ hc) (by decide)
    have h5 : p.1 ≠ "manual" := fun h => absurd (h ▸ hc) (by decide)
    have h6 : p.1 ≠ "other" := fun h => absurd (h ▸ hc) (by decide)
    have h7 : p.1 ≠ "__proto__" := fun h => absurd (h ▸ hc) (by decide)
    rw [assignBucket, if_neg h1, if_neg h2, if_neg h3, if_neg h4, if_neg h5,
      if_neg h6, if_neg h7, if_pos hc, if_pos hc]
  · rw [assignBucket]
    simp only [if_neg hc]
    split_ifs <;> rfl

theorem extra_foldl (agg : List (String × Nat)) (tc : TypeCounts)
    (hfresh : ∀ p ∈ agg, ∀ q ∈ tc.extra, q.1 ≠ p.1)
    (hnd : (agg.map Prod.fst).Nodup) :
    (agg.foldl assignBucket tc).extra =
      tc.extra ++ agg.filter (fun p => protoDataProps.contains p.1) := by
  induction agg generalizing tc with
  | nil => simp
  | cons p rest ih =>
    rw [List.foldl_cons, List.filter_cons]
    have hnd' : (rest.map Prod.fst).Nodup :=
      (List.nodup_cons.mp (by simpa using hnd)).2
    have hp1notin : p.1 ∉ rest.map Prod.fst :=
      (List.nodup_cons.mp (by simpa using hnd)).1
    by_cases hc : protoDataProps.contains p.1 = true
    · have hext : (assignBucket tc p).extra = tc.extra ++ [(p.1, p.2)] := by
        rw [extra_assignBucket, if_pos hc,
          setOwn_fresh _ _ _ (fun q hq => hfresh p (List.mem_cons_self _ _) q hq)]
      have hfresh' : ∀ p' ∈ rest, ∀ q ∈ (assignBucket tc p).extra,
          q.1 ≠ p'.1 := by
        intro p' hp' q hq
        rw [hext] at hq
        rcases List.mem_append.mp hq with hq | hq
        · exact hfresh p' (List.mem_cons_of_mem _ hp') q hq
        · rw [List.mem_singleton] at hq
          subst hq
          intro hcon
          exact hp1notin (hcon.symm ▸ List.mem_map_of_mem Prod.fst hp')
      rw [ih (assignBucket tc p) hfresh' hnd', hext, if_pos hc]
      simp
    · have hext : (assignBucket tc p).extra = tc.extra := by
        rw [extra_assignBucket, if_neg hc]
      have hfresh' : ∀ p' ∈ rest, ∀ q ∈ (assignBucket tc p).extra,
          q.1 ≠ p'.1 := by
        intro p' hp' q hq
        rw [hext] at hq
        exact hfresh p' (List.mem_cons_of_mem _ hp') q hq
      rw [ih (assignBucket tc p) hfresh' hnd', hext, if_neg hc]

theorem typeAgg_keys (ds : List StoredDocument) :
    (typeAgg ds).map Prod.fst = (ds.map (fun d => d.type)).dedup := by
  rw [typeAgg, List.map_map]
  exact List.map_id' _

/-- C10 (amended): `getRAGStats` returns totals over the (optionally
tenant-filtered) collections; the six declared buckets each equal the count
of filtered documents with that type string (0 when none exist), and the
total equals the six buckets plus the out-of-set documents.  But the record
does not always carry exactly six keys: because the JS `in` operator also
finds names inherited from `Object.prototype`, a document type equal to
such a name (e.g. `"toString"`) makes the assignment loop create a
spurious own key — the final conjunct characterises these extra keys as
exactly the aggregated types among the inherited data-property names. -/
theorem claim_C10_rag_stats (st : RagStore) (restaurant : Option String) :
    (getRAGStats st restaurant).totalDocuments =
      (docsFiltered st restaurant).length ∧
    (getRAGStats st restaurant).totalChunks =
      (chunksFiltered st restaurant).length ∧
    (getRAGStats st restaurant).documentsByType.menu =
      ((docsFiltered st restaurant).filter (fun d => d.type == "menu")).length ∧
    (getRAGStats st restaurant).documentsByType.recipe =
      ((docsFiltered st restaurant).filter (fun d => d.type == "recipe")).length ∧
    (getRAGStats st restaurant).documentsByType.sop =
      ((docsFiltered st restaurant).filter (fun d => d.type == "sop")).length ∧
    (getRAGStats st restaurant).documentsByType.policy =
      ((docsFiltered st restaurant).filter (fun d => d.type == "policy")).length ∧
    (getRAGStats st restaurant).documentsByType.manual =
      ((docsFiltered st restaurant).filter (fun d => d.type == "manual")).length ∧
    (getRAGStats st restaurant).documentsByType.other =
      ((docsFiltered st restaurant).filter (fun d => d.type == "other")).length ∧
    (getRAGStats st restaurant).totalDocuments =
      ((getRAGStats st restaurant).documentsByType.menu
        + (getRAGStats st restaurant).documentsByType.recipe
        + (getRAGStats st restaurant).documentsByType.sop
        + (getRAGStats st restaurant).documentsByType.policy
        + (getRAGStats st restaurant).documentsByType.manual
        + (getRAGStats st restaurant).documentsByType.other)
        + ((docsFiltered st restaurant).filter
            (fun d => decide (d.type ∉ typeKeys))).length ∧
    (getRAGStats st restaurant).documentsByType.extra =
      (typeAgg (docsFiltered st restaurant)).filter
        (fun p => protoDataProps.contains p.1) := by
  have hb : ∀ key, key ∈ typeKeys →
      bucketGet (getRAGStats st restaurant).documentsByType key =
        ((docsFiltered st restaurant).filter (fun d => d.type == key)).length :=
    fun key hkey => bucketGet_buildTypeCounts (docsFiltered st restaurant) key hkey
  have hmenu := hb "menu" (by decide)
  have hrecipe := hb "recipe" (by decide)
  have hsop := hb "sop" (by decide)
  have hpolicy := hb "policy" (by decide)
  have hmanual := hb "manual" (by decide)
  have hother := hb "other" (by decide)
  simp only [bucketGet, if_pos, String.reduceEq, if_true, if_false,
    reduceIte] at hmenu hrecipe hsop hpolicy hmanual hother
  refine ⟨rfl, rfl, hmenu, hrecipe, hsop, hpolicy, hmanual, hother, ?_, ?_⟩
  have hlen := length_eq_typeSum_add_outside (docsFiltered st restaurant)
  have hsum : ((typeKeys.map (fun k => ((docsFiltered st restaurant).filter
      (fun d => d.type == k)).length)).sum) =
      ((docsFiltered st restaurant).filter (fun d => d.type == "menu")).length
        + ((docsFiltered st restaurant).filter (fun d => d.type == "recipe")).length
        + ((docsFiltered st restaurant).filter (fun d => d.type == "sop")).length
        + ((docsFiltered st restaurant).filter (fun d => d.type == "policy")).length
        + ((docsFiltered st restaurant).filter (fun d => d.type == "manual")).length
        + ((docsFiltered st restaurant).filter (fun d => d.type == "other")).length := by
    simp only [typeKeys, List.map_cons, List.map_nil, List.sum_cons,
      List.sum_nil]
    omega
  rw [hsum] at hlen
  rw [hmenu, hrecipe, hsop, hpolicy, hmanual, hother]
  have htot : (getRAGStats st restaurant).totalDocuments =
      (docsFiltered st restaurant).length := rfl
  rw [htot]
  exact hlen
  have hnd : ((typeAgg (docsFiltered st restaurant)).map Prod.fst).Nodup := by
    rw [typeAgg_keys]
    exact List.nodup_dedup _
  have h := extra_foldl (typeAgg (docsFiltered st restaurant)) zeroTypeCounts
    (by intro p hp q hq; simp [zeroTypeCounts] at hq) hnd
  simpa [getRAGStats, buildTypeCounts, zeroTypeCounts] using h

/-- C10 counterexample: a stored document whose `type` is `"toString"` — a
name `documentsByType` inherits from `Object.prototype`, so the JS `in`
check passes — makes the assignment loop create a spurious seventh own key
on the returned record, refuting "exactly the six enumerated keys" and
"contributes to no documentsByType bucket". -/
theorem claim_C10_counterexample :
    (getRAGStats ⟨[], [⟨none, "d1", "r", "T", "toString", "x", 1, 0⟩]⟩
        none).documentsByType =
      ⟨0, 0, 0, 0, 0, 0, [("toString", 1)]⟩ ∧
    ¬ ("toString" ∈ typeKeys) ∧
    (getRAGStats ⟨[], [⟨none, "d1", "r", "T", "toString", "x", 1, 0⟩]⟩
        none).documentsByType.extra ≠ [] := by decide

end DocRag

namespace Embeddings

theorem generateEmbeddingsGo_inOrder (provider : List String → List EmbedItem)
    (f : String → List ℚ)
    (hp : ∀ batch, (provider batch).map EmbedItem.embedding = batch.map f) :
    ∀ (n : Nat) (ts : List String), ts.length ≤ n →
      (generateEmbeddingsGo provider ts).1 = ts.map f := by
  intro n
  induction n with
  | zero =>
    intro ts h
    have hts : ts = [] := List.eq_nil_of_length_eq_zero (Nat.le_zero.mp h)
    subst hts
    rw [generateEmbeddingsGo]
    rfl
  | succ n ih =>
    intro ts h
    by_cases hts : ts = []
    · subst hts
      rw [generateEmbeddingsGo]
      rfl
    · rw [generateEmbeddingsGo]
      rw [dif_neg hts]
      have hdrop : (ts.drop 1000).length ≤ n := by
        rw [List.length_drop]
        have hpos : 0 < ts.length := List.length_pos.mpr hts
        omega
      calc (provider (ts.take 1000)).map EmbedItem.embedding ++
            (generateEmbeddingsGo provider (ts.drop 1000)).1
          = (ts.take 1000).map f ++ (ts.drop 1000).map f := by
            rw [hp, ih _ hdrop]
        _ = ts.map f := by rw [← List.map_append, List.take_append_drop]

theorem sorted_orderedInsert_index (a : EmbedItem) (l : List EmbedItem)
    (h : l.Sorted fun p q => p.index ≤ q.index) :
    (l.orderedInsert (fun p q => p.index < q.index) a).Sorted
      fun p q => p.index ≤ q.index := by
  induction l with
  | nil => simp [List.orderedInsert]
  | cons b l ih =>
    rw [List.orderedInsert]
    by_cases hab : a.index < b.index
    · rw [if_pos hab, List.sorted_cons]
      refine ⟨?_, h⟩
      intro c hc
      rcases List.mem_cons.mp hc with rfl | hc
      · exact le_of_lt hab
      · exact le_trans (le_of_lt hab) ((List.sorted_cons.mp h).1 c hc)
    · rw [if_neg hab, List.sorted_cons]
      have hs := List.sorted_cons.mp h
      refine ⟨?_, ih hs.2⟩
      intro c hc
      rcases (List.mem_orderedInsert _).mp hc with rfl | hc
      · exact le_of_not_lt hab
      · exact hs.1 c hc

theorem sorted_sortByIndex (l : List EmbedItem) :
    (DocRag.sortByIndex l).Sorted fun p q => p.index ≤ q.index := by
  rw [DocRag.sortByIndex]
  induction l with
  | nil => simp [List.insertionSort]
  | cons a l ih =>
    rw [List.insertionSort]
    exact sorted_orderedInsert_index _ _ ih

theorem sorted_perm_nodup_eq (l₁ l₂ : List EmbedItem) (hperm : l₁.Perm l₂)
    (h₁ : l₁.Sorted fun p q => p.index ≤ q.index)
    (h₂ : l₂.Sorted fun p q => p.index ≤ q.index)
    (hnd : (l₁.map EmbedItem.index).Nodup) : l₁ = l₂ := by
  induction l₁ generalizing l₂ with
  | nil => exact (hperm.nil_eq).symm ▸ rfl
  | cons a t₁ ih =>
    cases l₂ with
    | nil => exact absurd hperm.symm (by simp)
    | cons b t₂ =>
      have hab : a = b := by
        have hamem : a ∈ b :: t₂ := hperm.subset (List.mem_cons_self a t₁)
        have hbmem : b ∈ a :: t₁ := hperm.symm.subset (List.mem_cons_self b t₂)
        rcases List.mem_cons.mp hamem with h1 | h1
        · exact h1
        · rcases List.mem_cons.mp hbmem with h2 | h2
          · exact h2.symm
          · have hle1 : b.index ≤ a.index := (List.sorted_cons.mp h₂).1 a h1
            have hle2 : a.index ≤ b.index := (List.sorted_cons.mp h₁).1 b h2
            have hidx : a.index = b.index := le_antisymm hle2 hle1
            have hand := List.nodup_cons.mp hnd
            exact absurd (hidx ▸ List.mem_map_of_mem EmbedItem.index h2)
              (by simpa using hand.1)
      subst hab
      have hperm' := hperm.cons_inv
      have hnd' : (t₁.map EmbedItem.index).Nodup := by
        simpa using (List.nodup_cons.mp (by simpa using hnd)).2
      have := ih t₂ hperm' (List.sorted_cons.mp h₁).2
        (List.sorted_cons.mp h₂).2 hnd'
      rw [this]

theorem taggedResponse_sorted (f : String → List ℚ) (texts : List String) :
    (DocRag.taggedResponse f texts).Sorted fun p q => p.index ≤ q.index := by
  rw [DocRag.taggedResponse, List.Sorted, List.pairwise_map]
  have h1 : List.Pairwise (fun a b : Nat => a < b)
      (texts.enum.map Prod.fst) := by
    rw [List.enum_map_fst]
    exact List.pairwise_lt_range _
  rw [List.pairwise_map] at h1
  exact h1.imp (fun h => le_of_lt h)

theorem taggedResponse_nodup (f : String → List ℚ) (texts : List String) :
    ((DocRag.taggedResponse f texts).map EmbedItem.index).Nodup := by
  have h : (DocRag.taggedResponse f texts).map EmbedItem.index =
      texts.enum.map Prod.fst := by
    rw [DocRag.taggedResponse, List.map_map]
    rfl
  rw [h, List.enum_map_fst]
  exact List.nodup_range _

theorem sortByIndex_of_perm_tagged (f : String → List ℚ)
    (texts : List String) (response : List EmbedItem)
    (h : response.Perm (DocRag.taggedResponse f texts)) :
    DocRag.sortByIndex response = DocRag.taggedResponse f texts := by
  have hperm : (DocRag.sortByIndex response).Perm
      (DocRag.taggedResponse f texts) :=
    (List.perm_insertionSort _ _).trans h
  refine sorted_perm_nodup_eq _ _ hperm (sorted_sortByIndex _)
    (taggedResponse_sorted f texts) ?_
  have hp := hperm.map EmbedItem.index
  exact hp.nodup_iff.mpr (taggedResponse_nodup f texts)

theorem taggedResponse_embeddings (f : String → List ℚ)
    (texts : List String) :
    (DocRag.taggedResponse f texts).map EmbedItem.embedding = texts.map f := by
  rw [DocRag.taggedResponse, List.map_map]
  calc texts.enum.map (EmbedItem.embedding ∘ fun p => (⟨p.1, f p.2⟩ : EmbedItem))
      = (texts.enum.map Prod.snd).map f := by
        rw [List.map_map]
        rfl
    _ = texts.map f := by rw [List.enum_map_snd]

end Embeddings

/-- C6 (amended): `generateEmbeddings` in `embeddings.ts` short-circuits the
empty list without a provider call and concatenates each 1000-slice response
in ARRAY order — so its output matches `texts[i]` exactly when each batch
response arrives in input order (it never consults the `index` tags);
`generateBatchEmbeddings` in the large `rag.ts` does re-sort any index-tagged
permutation of the response back into input order, but issues its single
provider call even for the empty list. -/
theorem claim_C6_batch_embeddings :
    (∀ provider, Embeddings.generateEmbeddings provider [] = ([], 0)) ∧
    (∀ (provider : List String → List Embeddings.EmbedItem)
        (f : String → List ℚ) (texts : List String),
      (∀ batch, (provider batch).map Embeddings.EmbedItem.embedding =
        batch.map f) →
      (Embeddings.generateEmbeddings provider texts).1 = texts.map f ∧
      (Embeddings.generateEmbeddings provider texts).1.length =
        texts.length) ∧
    (∀ (provider : List String → List Embeddings.EmbedItem)
        (f : String → List ℚ) (texts : List String),
      (provider texts).Perm (DocRag.taggedResponse f texts) →
      DocRag.generateBatchEmbeddings provider texts = (texts.map f, 1)) ∧
    (∀ provider, (DocRag.generateBatchEmbeddings provider []).2 = 1) := by
  refine ⟨fun provider => rfl, ?_, ?_, fun provider => rfl⟩
  · intro provider f texts hp
    have h1 : (Embeddings.generateEmbeddings provider texts).1 =
        texts.map f := by
      by_cases hts : texts = []
      · subst hts
        rfl
      · rw [Embeddings.generateEmbeddings, if_neg hts]
        exact Embeddings.generateEmbeddingsGo_inOrder provider f hp
          texts.length texts le_rfl
    exact ⟨h1, by rw [h1, List.length_map]⟩
  · intro provider f texts hperm
    rw [DocRag.generateBatchEmbeddings,
      Embeddings.sortByIndex_of_perm_tagged f texts _ hperm,
      Embeddings.taggedResponse_embeddings]

theorem claim_C6_batch_embeddings_witness :
    DocRag.generateBatchEmbeddings cexProvider ["a", "b"] = ([[1], [2]], 1) ∧
    Embeddings.generateEmbeddings cexProvider [] = ([], 0) := by
  constructor
  · have h := claim_C6_batch_embeddings.2.2.1 cexProvider cexEmb ["a", "b"]
      (by decide)
    rw [h]
    decide
  · exact claim_C6_batch_embeddings.1 cexProvider

/-- C6 counterexample: with the index-tagged but array-reordered provider
response, `generateEmbeddings` of `embeddings.ts` returns the embeddings in
provider array order `[[2], [1]]`, not the input order `[[1], [2]]` that the
index tags dictate (as `generateBatchEmbeddings` recovers); and the rag-side
`generateBatchEmbeddings` issues a provider call even on the empty list. -/
theorem claim_C6_counterexample :
    (Embeddings.generateEmbeddings cexProvider ["a", "b"]).1 = [[2], [1]] ∧
    (DocRag.generateBatchEmbeddings cexProvider ["a", "b"]).1 = [[1], [2]] ∧
    ([[2], [1]] : List (List ℚ)) ≠ [[1], [2]] ∧
    (DocRag.generateBatchEmbeddings cexProvider []).2 = 1 := by
  refine ⟨?_, by decide, by decide, rfl⟩
  rw [Embeddings.generateEmbeddings]
  rw [if_neg (by decide)]
  rw [Embeddings.generateEmbeddingsGo]
  rw [dif_neg (by decide)]
  rw [Embeddings.generateEmbeddingsGo]
  rfl

theorem jsTrim_length_le (s : List Char) : (jsTrim s).length ≤ s.length := by
  rw [jsTrim, List.length_reverse]
  calc ((s.dropWhile isWS).reverse.dropWhile isWS).length
      ≤ (s.dropWhile isWS).reverse.length :=
        (List.dropWhile_sublist _).length_le
    _ = (s.dropWhile isWS).length := List.length_reverse _
    _ ≤ s.length := (List.dropWhile_sublist _).length_le

theorem mem_jsTrim_of_not_ws (s : List Char) (c : Char) (hc : c ∈ s)
    (hw : ¬ isWS c = true) : c ∈ jsTrim s := by
  have step : ∀ (l : List Char), c ∈ l → c ∈ l.dropWhile isWS := by
    intro l hl
    have hsplit : l.takeWhile isWS ++ l.dropWhile isWS = l :=
      List.takeWhile_append_dropWhile isWS l
    rw [← hsplit] at hl
    rcases List.mem_append.mp hl with h1 | h1
    · exact absurd (List.mem_takeWhile_imp h1) hw
    · exact h1
  rw [jsTrim, List.mem_reverse]
  exact step _ (by rw [List.mem_reverse]; exact step _ hc)

theorem jsTrim_eq_nil_iff (s : List Char) :
    jsTrim s = [] ↔ ∀ c ∈ s, isWS c = true := by
  constructor
  · intro h c hc
    by_contra hw
    exact absurd (h ▸ mem_jsTrim_of_not_ws s c hc hw) (List.not_mem_nil c)
  · intro h
    have h1 : s.dropWhile isWS = [] := List.dropWhile_eq_nil_iff.mpr
      (fun c hc => h c hc)
    rw [jsTrim, h1]
    rfl

namespace DocRag

theorem actualSplitOf_le (s : List Char) (maxChars : Nat) :
    actualSplitOf s maxChars ≤ maxChars := by
  rw [actualSplitOf]
  cases hl : lastSpaceIdx s maxChars with
  | none => exact le_rfl
  | some i =>
    show (if maxChars < 2 * i then i else maxChars) ≤ maxChars
    by_cases hi : maxChars < 2 * i
    · rw [if_pos hi]
      have hmem : i ∈ (List.range (min (maxChars + 1) s.length)).filter
          (fun j => s.getD j 'x' = ' ') := by
        have h2 := hl
        rw [lastSpaceIdx] at h2
        exact List.mem_of_mem_getLast? h2
      have := List.mem_range.mp (List.mem_filter.mp hmem).1
      omega
    · rw [if_neg hi]

theorem splitLoop_inv (maxChars overlap : Nat) :
    ∀ (fuel : Nat) (cur : List Char) (chunks : List ChunkResult) (idx : Nat)
      (cur' : List Char) (chunks' : List ChunkResult) (idx' : Nat),
      splitLoop maxChars overlap fuel cur chunks idx =
        some (cur', chunks', idx') →
      idx = chunks.length →
      chunks.map ChunkResult.index = List.range chunks.length →
      (∀ c ∈ chunks, c.content.length ≤ maxChars) →
      idx' = chunks'.length ∧
      chunks'.map ChunkResult.index = List.range chunks'.length ∧
      (∀ c ∈ chunks', c.content.length ≤ maxChars) ∧
      cur'.length ≤ maxChars := by
  intro fuel
  induction fuel with
  | zero => intro cur chunks idx cur' chunks' idx' hrun; exact absurd hrun (by simp [splitLoop])
  | succ fuel ih =>
    intro cur chunks idx cur' chunks' idx' hrun hidx hrange hlen
    rw [splitLoop] at hrun
    by_cases hg : cur.length ≤ maxChars
    · rw [if_pos hg] at hrun
      injection hrun with hr
      injection hr with ha hb
      injection hb with hb1 hb2
      subst ha
      subst hb1
      subst hb2
      exact ⟨hidx, hrange, hlen, hg⟩
    · rw [if_neg hg] at hrun
      have hnew : ∀ c ∈ chunks ++
          [ChunkResult.mk (jsTrim (cur.take (actualSplitOf cur maxChars))) idx],
          c.content.length ≤ maxChars := by
        intro c hc
        rcases List.mem_append.mp hc with h1 | h1
        · exact hlen c h1
        · rw [List.mem_singleton] at h1
          subst h1
          calc (jsTrim (cur.take (actualSplitOf cur maxChars))).length
              ≤ (cur.take (actualSplitOf cur maxChars)).length :=
                jsTrim_length_le _
            _ ≤ actualSplitOf cur maxChars := by
                rw [List.length_take]
                exact min_le_left _ _
            _ ≤ maxChars := actualSplitOf_le cur maxChars
      have hidx' : idx + 1 = (chunks ++
          [ChunkResult.mk (jsTrim (cur.take (actualSplitOf cur maxChars))) idx]).length := by
        rw [List.length_append, List.length_singleton, hidx]
      have hrange' : (chunks ++
          [ChunkResult.mk (jsTrim (cur.take (actualSplitOf cur maxChars))) idx]).map
          ChunkResult.index = List.range (chunks ++
          [ChunkResult.mk (jsTrim (cur.take (actualSplitOf cur maxChars))) idx]).length := by
        rw [List.map_append, List.length_append, List.length_singleton,
          List.range_succ, hrange]
        simp [hidx]
      exact ih _ _ _ _ _ _ hrun hidx' hrange' hnew

theorem processPara_inv (maxChars overlap : Nat) (st st' : CState)
    (para : List Char) (hinv : ChunkInv maxChars st)
    (hrun : processPara maxChars overlap st para = some st') :
    ChunkInv maxChars st' := by
  obtain ⟨hidx, hrange, hlen, hcur⟩ := hinv
  rw [processPara] at hrun
  by_cases hp : (jsTrim para).isEmpty
  · rw [if_pos hp] at hrun
    injection hrun with h
    subst h
    exact ⟨hidx, hrange, hlen, hcur⟩
  · rw [if_neg hp] at hrun
    dsimp only at hrun
    set st1 : CState :=
      if st.cur ≠ [] ∧ st.cur.length + (jsTrim para).length + 2 > maxChars then
        { chunks := st.chunks ++ [⟨jsTrim st.cur, st.idx⟩]
          cur := if 0 < overlap ∧ overlap < st.cur.length then
              (st.cur.drop (st.cur.length - overlap))
                ++ '\n' :: '\n' :: jsTrim para
            else jsTrim para
          idx := st.idx + 1 }
      else
        { chunks := st.chunks
          cur := if st.cur.isEmpty then jsTrim para
                 else st.cur ++ '\n' :: '\n' :: jsTrim para
          idx := st.idx } with hst1
    have h1 : st1.idx = st1.chunks.length ∧
        st1.chunks.map ChunkResult.index = List.range st1.chunks.length ∧
        (∀ c ∈ st1.chunks, c.content.length ≤ maxChars) := by
      rw [hst1]
      by_cases hc : st.cur ≠ [] ∧ st.cur.length + (jsTrim para).length + 2 > maxChars
      · rw [if_pos hc]
        refine ⟨?_, ?_, ?_⟩
        · simp [hidx]
        · simp only [List.map_append, List.length_append,
            List.length_singleton, List.range_succ, hrange]
          simp [hidx]
        · intro c hcm
          rcases List.mem_append.mp hcm with h2 | h2
          · exact hlen c h2
          · rw [List.mem_singleton] at h2
            subst h2
            exact le_trans (jsTrim_length_le _) hcur
      · rw [if_neg hc]
        exact ⟨hidx, hrange, hlen⟩
    cases hloop : splitLoop maxChars overlap (st1.cur.length + 2)
        st1.cur st1.chunks st1.idx with
    | none => rw [hloop] at hrun; exact absurd hrun (by simp)
    | some out =>
      rw [hloop] at hrun
      obtain ⟨cur2, chunks2, idx2⟩ := out
      injection hrun with h
      subst h
      have := splitLoop_inv maxChars overlap _ _ _ _ _ _ _ hloop h1.1 h1.2.1 h1.2.2
      exact ⟨this.1, this.2.1, this.2.2.1, this.2.2.2⟩

theorem foldlM_inv (maxChars overlap : Nat) (ps : List (List Char)) :
    ∀ (st st' : CState), ChunkInv maxChars st →
      ps.foldlM (processPara maxChars overlap) st = some st' →
      ChunkInv maxChars st' := by
  induction ps with
  | nil =>
    intro st st' hinv hrun
    injection hrun with h
    subst h
    exact hinv
  | cons p ps ih =>
    intro st st' hinv hrun
    rw [List.foldlM_cons] at hrun
    cases hstep : processPara maxChars overlap st p with
    | none => rw [hstep] at hrun; exact absurd hrun (by simp)
    | some st1 =>
      rw [hstep] at hrun
      exact ih st1 st' (processPara_inv maxChars overlap st st1 p hinv hstep) hrun

theorem chunkText_inv (text : List Char) (maxChars overlap : Nat)
    (cs : List ChunkResult)
    (hrun : chunkText text maxChars overlap = some cs) :
    (∀ c ∈ cs, c.content.length ≤ maxChars) ∧
    cs.map ChunkResult.index = List.range cs.length := by
  rw [chunkText] at hrun
  cases hfold : (paragraphsOf text).foldlM (processPara maxChars overlap)
      ⟨[], [], 0⟩ with
  | none => rw [hfold] at hrun; exact absurd hrun (by simp)
  | some st =>
    rw [hfold] at hrun
    dsimp only at hrun
    have hinv0 : ChunkInv maxChars (⟨[], [], 0⟩ : CState) := by
      refine ⟨rfl, rfl, ?_, ?_⟩ <;> simp
    have hinv := foldlM_inv maxChars overlap _ _ _ hinv0 hfold
    obtain ⟨hidx, hrange, hlen, hcur⟩ := hinv
    by_cases hflush : (jsTrim st.cur).isEmpty
    · rw [if_pos hflush] at hrun
      injection hrun with h
      subst h
      exact ⟨hlen, hrange⟩
    · rw [if_neg hflush] at hrun
      injection hrun with h
      subst h
      constructor
      · intro c hcm
        rcases List.mem_append.mp hcm with h2 | h2
        · exact hlen c h2
        · rw [List.mem_singleton] at h2
          subst h2
          exact le_trans (jsTrim_length_le _) hcur
      · rw [List.map_append, List.length_append, List.length_singleton,
          List.range_succ, hrange]
        simp [hidx]

theorem splitParasAux_length_bound (cs : List Char)
    (mode : Option (List Char)) :
    ((splitParasAux cs mode).map List.length).sum
      + 2 * (splitParasAux cs mode).length ≤ splitBoundRHS cs mode + 2 := by
  induction cs, mode using splitParasAux.induct with
  | case1 => simp [splitParasAux, splitBoundRHS]
  | case2 cur => simp [splitParasAux, splitBoundRHS]
  | case3 rest ih =>
    rw [splitParasAux, if_pos rfl]
    simp only [splitBoundRHS, List.dropWhile_cons] at ih ⊢
    simpa using ih
  | case4 c rest hc ih =>
    rw [splitParasAux, if_neg hc]
    simp only [splitBoundRHS, List.dropWhile_cons, List.length_cons,
      List.length_singleton, List.length_nil] at ih ⊢
    rw [if_neg (by simpa using hc)]
    simp only [List.length_cons]
    omega
  | case5 c rest cur hc ih =>
    rw [splitParasAux, if_pos hc]
    obtain ⟨hc1, hc2⟩ := hc
    obtain ⟨rest2, rfl⟩ : ∃ rest2, rest = '\n' :: rest2 := by
      cases rest with
      | nil => simp at hc2
      | cons x xs =>
        rw [List.head?_cons, Option.some.injEq] at hc2
        exact ⟨xs, by rw [hc2]⟩
    have hdle := (@List.dropWhile_sublist Char rest2
      (fun x => decide (x = '\n'))).length_le
    simp only [splitBoundRHS, List.dropWhile_cons] at ih
    simp only [splitBoundRHS, List.map_cons, List.sum_cons,
      List.length_cons, List.length_reverse] at ih ⊢
    simp only [decide_True, if_true] at ih
    omega
  | case6 c rest cur hc ih =>
    rw [splitParasAux, if_neg hc]
    simp only [splitBoundRHS, List.length_cons] at ih ⊢
    omega

theorem splitParasAux_covers (cs : List Char) (mode : Option (List Char))
    (c : Char) (hw : ¬ isWS c = true) :
    (c ∈ cs ∨ ∃ cur, mode = some cur ∧ c ∈ cur) →
      ∃ p ∈ splitParasAux cs mode, c ∈ p := by
  have hcnl : ¬ c = '\n' := by
    intro hcq
    subst hcq
    simp [isWS] at hw
  induction cs, mode using splitParasAux.induct with
  | case1 =>
    intro h
    rcases h with h | ⟨cur, hcur, _⟩
    · exact absurd h (List.not_mem_nil c)
    · exact absurd hcur (by simp)
  | case2 cur =>
    intro h
    rcases h with h | ⟨curx, hcur, hmem⟩
    · exact absurd h (List.not_mem_nil c)
    · rw [Option.some.injEq] at hcur
      refine ⟨cur.reverse, by simp [splitParasAux], List.mem_reverse.mpr ?_⟩
      rw [hcur]
      exact hmem
  | case3 rest ih =>
    intro h
    rw [splitParasAux, if_pos rfl]
    apply ih
    rcases h with h | ⟨cur, hcur, _⟩
    · rcases List.mem_cons.mp h with hq | h
      · exact absurd hq hcnl
      · exact Or.inl h
    · exact absurd hcur (by simp)
  | case4 c0 rest hc ih =>
    intro h
    rw [splitParasAux, if_neg hc]
    apply ih
    rcases h with h | ⟨cur, hcur, _⟩
    · rcases List.mem_cons.mp h with rfl | h
      · exact Or.inr ⟨[c], rfl, List.mem_singleton_self c⟩
      · exact Or.inl h
    · exact absurd hcur (by simp)
  | case5 c0 rest cur hc ih =>
    intro h
    rw [splitParasAux, if_pos hc]
    rcases h with h | ⟨curx, hcur, hmem⟩
    · rcases List.mem_cons.mp h with rfl | h
      · exact absurd hc.1 hcnl
      · obtain ⟨p, hp, hcp⟩ := ih (Or.inl h)
        exact ⟨p, List.mem_cons_of_mem _ hp, hcp⟩
    · rw [Option.some.injEq] at hcur
      refine ⟨cur.reverse, List.mem_cons_self _ _, List.mem_reverse.mpr ?_⟩
      rw [hcur]
      exact hmem
  | case6 c0 rest cur hc ih =>
    intro h
    rw [splitParasAux, if_neg hc]
    apply ih
    rcases h with h | ⟨curx, hcur, hmem⟩
    · rcases List.mem_cons.mp h with rfl | h
      · exact Or.inr ⟨c :: cur, rfl, List.mem_cons_self _ _⟩
      · exact Or.inl h
    · rw [Option.some.injEq] at hcur
      refine Or.inr ⟨c0 :: cur, rfl, List.mem_cons_of_mem _ ?_⟩
      rw [hcur]
      exact hmem

theorem paragraphsOf_keeps (text : List Char) (p : List Char)
    (hp : p ∈ paragraphsOf text) : ¬ (jsTrim p).isEmpty = true := by
  have := (List.mem_filter.mp hp).2
  simpa using this

theorem paragraphsOf_ne_nil (text : List Char) (hne : jsTrim text ≠ []) :
    paragraphsOf text ≠ [] := by
  have hnw : ¬ ∀ c ∈ text, isWS c = true := by
    intro h
    exact hne ((jsTrim_eq_nil_iff text).mpr h)
  push_neg at hnw
  obtain ⟨c, hc, hcw⟩ := hnw
  obtain ⟨p, hp, hcp⟩ := splitParasAux_covers text (some []) c hcw (Or.inl hc)
  have hkeep : p ∈ paragraphsOf text := by
    rw [paragraphsOf, List.mem_filter]
    refine ⟨hp, ?_⟩
    have hnil : jsTrim p ≠ [] := by
      intro hnil
      exact absurd ((jsTrim_eq_nil_iff p).mp hnil c hcp) hcw
    simpa [List.isEmpty_iff] using hnil
  exact List.ne_nil_of_mem hkeep

theorem joinFrom_append (x : List Char) (ps : List (List Char)) :
    ∀ a : List Char, joinFrom (x ++ a) ps = x ++ joinFrom a ps := by
  induction ps with
  | nil => intro a; rfl
  | cons p ps ih =>
    intro a
    show joinFrom ((x ++ a) ++ '\n' :: '\n' :: p) ps =
      x ++ joinFrom (a ++ '\n' :: '\n' :: p) ps
    rw [List.append_assoc, ih]

theorem joinSep_cons_eq_joinFrom (ps : List (List Char)) :
    ∀ a : List Char, joinSep (a :: ps) = joinFrom a ps := by
  induction ps with
  | nil => intro a; rfl
  | cons b ps ih =>
    intro a
    show a ++ '\n' :: '\n' :: joinSep (b :: ps) = joinFrom a (b :: ps)
    rw [ih b]
    show a ++ '\n' :: '\n' :: joinFrom b ps =
      joinFrom (a ++ '\n' :: '\n' :: b) ps
    have h : a ++ '\n' :: '\n' :: b = (a ++ ['\n', '\n']) ++ b := by
      simp
    rw [h, joinFrom_append]
    simp

theorem mem_joinFrom_left (ps : List (List Char)) :
    ∀ (acc : List Char) (c : Char), c ∈ acc → c ∈ joinFrom acc ps := by
  induction ps with
  | nil => intro acc c h; exact h
  | cons p ps ih =>
    intro acc c h
    exact ih _ c (List.mem_append.mpr (Or.inl h))

theorem splitLoop_immediate (maxChars overlap fuel : Nat) (cur : List Char)
    (chunks : List ChunkResult) (idx : Nat) (h : cur.length ≤ maxChars) :
    splitLoop maxChars overlap (fuel + 1) cur chunks idx =
      some (cur, chunks, idx) := by
  rw [splitLoop, if_pos h]

theorem sum_trimmed_filtered_le (q : List Char → Bool)
    (l : List (List Char)) :
    (((l.filter q).map (fun p => (jsTrim p).length + 2)).sum) ≤
      (l.map List.length).sum + 2 * l.length := by
  induction l with
  | nil => simp
  | cons p l ih =>
    rw [List.filter_cons]
    by_cases h : q p
    · rw [if_pos h]
      simp only [List.map_cons, List.sum_cons, List.length_cons]
      have := jsTrim_length_le p
      omega
    · rw [if_neg (by simpa using h)]
      simp only [List.map_cons, List.sum_cons, List.length_cons]
      omega

theorem paragraphsOf_sum_bound (text : List Char) :
    ((paragraphsOf text).map (fun p => (jsTrim p).length + 2)).sum ≤
      text.length + 2 := by
  have h1 := sum_trimmed_filtered_le (fun p => !(jsTrim p).isEmpty)
    (splitParasAux text (some []))
  have h2 := splitParasAux_length_bound text (some [])
  rw [paragraphsOf]
  simp only [splitBoundRHS, List.length_nil, Nat.add_zero] at h2
  omega

theorem splitLoop_done (maxChars overlap fuel : Nat) (cur : List Char)
    (chunks : List ChunkResult) (idx : Nat) (h : cur.length ≤ maxChars)
    (hf : fuel ≠ 0) :
    splitLoop maxChars overlap fuel cur chunks idx =
      some (cur, chunks, idx) := by
  cases fuel with
  | zero => exact absurd rfl hf
  | succ n => rw [splitLoop, if_pos h]

theorem processPara_first (maxChars overlap : Nat) (para : List Char)
    (hp : ¬ (jsTrim para).isEmpty = true)
    (hfit : (jsTrim para).length ≤ maxChars) :
    processPara maxChars overlap ⟨[], [], 0⟩ para =
      some ⟨[], jsTrim para, 0⟩ := by
  rw [processPara, if_neg hp]
  dsimp only
  rw [if_neg (show ¬ (([] : List Char) ≠ [] ∧
    ([] : List Char).length + (jsTrim para).length + 2 > maxChars)
    from fun h => h.1 rfl)]
  rw [if_pos (show ([] : List Char).isEmpty = true from rfl)]
  rw [splitLoop_done maxChars overlap _ _ _ _ hfit (by omega)]

theorem processPara_noflush (maxChars overlap : Nat) (acc para : List Char)
    (hp : ¬ (jsTrim para).isEmpty = true) (hacc : acc ≠ [])
    (hfit : acc.length + (jsTrim para).length + 2 ≤ maxChars) :
    processPara maxChars overlap ⟨[], acc, 0⟩ para =
      some ⟨[], acc ++ '\n' :: '\n' :: jsTrim para, 0⟩ := by
  rw [processPara, if_neg hp]
  dsimp only
  rw [if_neg (show ¬ (acc ≠ [] ∧
    acc.length + (jsTrim para).length + 2 > maxChars)
    from fun h => absurd hfit (by omega))]
  rw [if_neg (show ¬ acc.isEmpty = true from by
    simpa [List.isEmpty_iff] using hacc)]
  rw [splitLoop_done maxChars overlap _ _ _ _ (by
    simp only [List.length_append, List.length_cons]
    omega) (by omega)]

theorem fold_small_aux (maxChars overlap : Nat) (ps : List (List Char)) :
    ∀ (acc : List Char),
      (∀ p ∈ ps, ¬ (jsTrim p).isEmpty = true) →
      acc ≠ [] →
      acc.length + ((ps.map (fun p => (jsTrim p).length + 2)).sum) ≤ maxChars →
      ps.foldlM (processPara maxChars overlap) (⟨[], acc, 0⟩ : CState) =
        some ⟨[], joinFrom acc (ps.map jsTrim), 0⟩ := by
  induction ps with
  | nil => intro acc _ _ _; rfl
  | cons p ps ih =>
    intro acc hkept hacc hbound
    rw [List.foldlM_cons]
    have hsum : acc.length + ((jsTrim p).length + 2) +
        ((ps.map (fun q => (jsTrim q).length + 2)).sum) ≤ maxChars := by
      simp only [List.map_cons, List.sum_cons] at hbound
      omega
    rw [processPara_noflush maxChars overlap acc p
      (hkept p (List.mem_cons_self p ps)) hacc (by omega)]
    have hstep := ih (acc ++ '\n' :: '\n' :: jsTrim p)
      (fun q hq => hkept q (List.mem_cons_of_mem _ hq))
      (by simp)
      (by
        simp only [List.length_append, List.length_cons]
        omega)
    show ps.foldlM (processPara maxChars overlap)
        ⟨[], acc ++ '\n' :: '\n' :: jsTrim p, 0⟩ =
      some ⟨[], joinFrom acc ((p :: ps).map jsTrim), 0⟩
    rw [hstep]
    rfl

theorem chunkText_small (text : List Char) (maxChars overlap : Nat)
    (hne : jsTrim text ≠ []) (hlen : text.length < maxChars) :
    chunkText text maxChars overlap = some [⟨normalizeParas text, 0⟩] := by
  cases hps : paragraphsOf text with
  | nil => exact absurd hps (paragraphsOf_ne_nil text hne)
  | cons p0 rest =>
    have hbound := paragraphsOf_sum_bound text
    rw [hps] at hbound
    simp only [List.map_cons, List.sum_cons] at hbound
    have hkept0 : ¬ (jsTrim p0).isEmpty = true :=
      paragraphsOf_keeps text p0 (by rw [hps]; exact List.mem_cons_self p0 rest)
    have htp0 : jsTrim p0 ≠ [] := by
      simpa [List.isEmpty_iff] using hkept0
    have hfit0 : (jsTrim p0).length ≤ maxChars := by omega
    have hstep0 := processPara_first maxChars overlap p0 hkept0 hfit0
    have hkeptRest : ∀ p ∈ rest, ¬ (jsTrim p).isEmpty = true := fun p hp =>
      paragraphsOf_keeps text p (by rw [hps]; exact List.mem_cons_of_mem _ hp)
    have hfold := fold_small_aux maxChars overlap rest (jsTrim p0)
      hkeptRest htp0 (by omega)
    have hflush : ¬ (jsTrim (joinFrom (jsTrim p0)
        (rest.map jsTrim))).isEmpty = true := by
      have hnw : ¬ ∀ c ∈ p0, isWS c = true := by
        intro h
        exact htp0 ((jsTrim_eq_nil_iff p0).mpr h)
      push_neg at hnw
      obtain ⟨c, hc, hcw⟩ := hnw
      have hc1 : c ∈ jsTrim p0 := mem_jsTrim_of_not_ws p0 c hc hcw
      have hc2 : c ∈ joinFrom (jsTrim p0) (rest.map jsTrim) :=
        mem_joinFrom_left _ _ c hc1
      have hc3 : jsTrim (joinFrom (jsTrim p0) (rest.map jsTrim)) ≠ [] := by
        intro hnil
        exact absurd ((jsTrim_eq_nil_iff _).mp hnil c hc2) hcw
      simpa [List.isEmpty_iff] using hc3
    rw [chunkText, hps, List.foldlM_cons, hstep0]
    show (match rest.foldlM (processPara maxChars overlap)
        (⟨[], jsTrim p0, 0⟩ : CState) with
      | none => none
      | some st =>
        if (jsTrim st.cur).isEmpty then some st.chunks
        else some (st.chunks ++ [⟨jsTrim st.cur, st.idx⟩])) =
      some [⟨normalizeParas text, 0⟩]
    rw [hfold]
    dsimp only
    rw [if_neg hflush]
    have hnorm : normalizeParas text =
        jsTrim (joinFrom (jsTrim p0) (rest.map jsTrim)) := by
      rw [normalizeParas, hps, List.map_cons, joinSep_cons_eq_joinFrom]
    rw [hnorm]
    rfl

/-- C4 (amended): on every run of `chunkText` that terminates (the model's
`some`), each chunk's length is at most `maxChars` and the indices are
exactly `0..N-1`; the empty text yields the empty sequence; and a text with
nonempty trim shorter than `maxChars` yields exactly one chunk equal to the
trim of its trimmed kept paragraphs rejoined with one blank line
(`normalizeParas`) — not in general the trimmed input.  The final conjunct
documents that termination is not vacuous in the claimed parameter range:
with `maxChars = 10`, `overlap = 6` the hard-split loop repeats its state
forever (no fuel suffices), so the source never returns there. -/
theorem claim_C4_chunker (text : List Char) (maxChars overlap : Nat)
    (cs : List ChunkResult)
    (hrun : chunkText text maxChars overlap = some cs) :
    (∀ c ∈ cs, c.content.length ≤ maxChars) ∧
    cs.map ChunkResult.index = List.range cs.length ∧
    (text = [] → cs = []) ∧
    (jsTrim text ≠ [] → text.length < maxChars →
      cs = [⟨normalizeParas text, 0⟩]) ∧
    chunkText ("abcdef ghijklmnop".toList) 10 6 = none := by
  refine ⟨(chunkText_inv text maxChars overlap cs hrun).1,
    (chunkText_inv text maxChars overlap cs hrun).2, ?_, ?_, ?_⟩
  · intro h
    subst h
    have hempty : chunkText [] maxChars overlap = some [] := rfl
    rw [hempty] at hrun
    injection hrun with h
    exact h.symm
  · intro h1 h2
    rw [chunkText_small text maxChars overlap h1 h2] at hrun
    injection hrun with h
    exact h.symm
  · decide

theorem claim_C4_chunker_witness :
    (∀ c ∈ [(⟨"hello world".toList, 0⟩ : ChunkResult)],
        c.content.length ≤ 500) ∧
    [(⟨"hello world".toList, 0⟩ : ChunkResult)].map ChunkResult.index =
      List.range [(⟨"hello world".toList, 0⟩ : ChunkResult)].length ∧
    ("hello world".toList = [] →
      [(⟨"hello world".toList, 0⟩ : ChunkResult)] = []) ∧
    (jsTrim "hello world".toList ≠ [] → "hello world".toList.length < 500 →
      [(⟨"hello world".toList, 0⟩ : ChunkResult)] =
        [⟨normalizeParas "hello world".toList, 0⟩]) ∧
    chunkText ("abcdef ghijklmnop".toList) 10 6 = none :=
  claim_C4_chunker "hello world".toList 500 50 _ (by decide)

/-- C4 counterexample: `"a\n\n\nb"` is shorter than the default
`maxChars = 500` and is already trimmed, yet the chunker's single chunk is
`"a\n\nb"` (the triple newline is normalised to one blank line), which
differs from the trimmed input — refuting "exactly one chunk equal to the
trimmed input". -/
theorem claim_C4_counterexample :
    chunkText ("a\n\n\nb".toList) 500 50 = some [⟨"a\n\nb".toList, 0⟩] ∧
    ("a\n\n\nb".toList).length < 500 ∧
    jsTrim ("a\n\n\nb".toList) = "a\n\n\nb".toList ∧
    "a\n\nb".toList ≠ jsTrim ("a\n\n\nb".toList) := by decide

end DocRag

namespace Upload

/-- C8 (amended): `detectCsvType` classifies a header set by the first of
three ordered signals that fires — sales columns give `sales`; otherwise
`in_stock`, `low_stock_level`, or `stock`-without-`price` give
`inventory`; otherwise `price` plus `cost` or `category` gives `products`;
otherwise the set is rejected (`none`). -/
theorem claim_C8_csv_type_detection (headers : List String) :
    (detectCsvType headers = some CsvType.sales ↔
      salesSignal headers = true) ∧
    (detectCsvType headers = some CsvType.inventory ↔
      salesSignal headers = false ∧ inventorySignal headers = true) ∧
    (detectCsvType headers = some CsvType.products ↔
      salesSignal headers = false ∧ inventorySignal headers = false ∧
        productsSignal headers = true) ∧
    (detectCsvType headers = none ↔
      salesSignal headers = false ∧ inventorySignal headers = false ∧
        productsSignal headers = false) := by
  rw [detectCsvType]
  by_cases h1 : salesSignal headers <;>
    by_cases h2 : inventorySignal headers <;>
      by_cases h3 : productsSignal headers <;>
        simp [h1, h2, h3]

/-- C8 counterexample: the header set `["in_stock", "price", "cost"]` has
a stock-level column together with a price column.  The claim's rules
(price present, so not inventory; price plus cost, so products) give
`products`, but the code's `!price` guard applies only to the bare
`stock` column, so `detectCsvType` returns `inventory`. -/
theorem claim_C8_counterexample :
    detectCsvType ["in_stock", "price", "cost"] = some CsvType.inventory ∧
    detectCsvTypeClaimed ["in_stock", "price", "cost"] =
      some CsvType.products ∧
    detectCsvType ["in_stock", "price", "cost"] ≠
      detectCsvTypeClaimed ["in_stock", "price", "cost"] := by decide

end Upload

namespace DocRag

/-- C3 (code bug): ingestion is not atomic.  Starting from an empty store,
ingesting "hello world" with a succeeding embedding call and a succeeding
chunk `insertMany`, but a rejecting document `insertOne`, aborts with the
chunk batch already committed: the failure state holds a chunk written for
the attempted document id while no document record exists, contradicting
"no partially written chunks for the attempted document id remain
committed". -/
theorem claim_C3_ingest_not_atomic :
    ∃ stFail : RagStore,
      ingestDocument ⟨[], []⟩ "resto" "hello world" "Doc" "manual" none
          "doc_1" 7 500
          (fun texts => Except.ok (texts.map (fun _ => ([1] : List ℚ))))
          true false =
        some (Except.error (IngestErr.docWriteFailed, stFail)) ∧
      stFail.chunks ≠ [] ∧
      (∀ c ∈ stFail.chunks, c.document_id = "doc_1") ∧
      stFail.docs = [] := by
  refine ⟨⟨[⟨none, "doc_1", "resto", "hello world", [1],
    ⟨"manual", "Doc", none, some "chunk_1", none, none⟩, 0, 7⟩], []⟩,
    rfl, by decide, by decide, rfl⟩

end DocRag
